import Mathlib

/-!
Verification of the Theme Factory build-server core against its
natural-language specification.

The repository bundles several revisions of the same Express server
(`src/server.js`, plus unnamed parts).  The components relevant here are
pure string/list manipulation and straight-line orchestration code, which
is embedded shallowly below:

* JavaScript strings are modelled as `List Char` (`JStr`);
* the archive, supervisor, render and pipeline code is translated
  function by function, with I/O outcomes (subprocess exits, filesystem
  errors, page renders) supplied by explicit oracle records;
* each claim of the specification is then stated and settled as a theorem
  about those definitions.
-/

set_option maxRecDepth 4000

namespace ThemeFactory

/-- JavaScript strings, modelled as lists of characters. -/
abbrev JStr := List Char

/-- Model of JavaScript `s.startsWith(pre)`: `listStartsWith pre s`. -/
def listStartsWith : JStr → JStr → Bool
  | [], _ => true
  | _ :: _, [] => false
  | p :: ps, c :: cs => p == c && listStartsWith ps cs

/-- Model of JavaScript `s.endsWith(suf)`: `listEndsWith suf s`. -/
def listEndsWith (suf s : JStr) : Bool :=
  listStartsWith suf.reverse s.reverse

/-- Model of JavaScript `s.split(sep)` for a one-character separator. -/
def splitOnChar (sep : Char) : JStr → List JStr
  | [] => [[]]
  | c :: rest =>
    if c == sep then [] :: splitOnChar sep rest
    else
      match splitOnChar sep rest with
      | h :: t => (c :: h) :: t
      | [] => [[c]]

/-! ## Node `path.posix` (used by the Archive Guard) -/

/-- Segment resolution of Node's `path.posix.normalize` (`normalizeString`):
`.` and empty segments are dropped, `..` pops the previous segment, and when
`allowAbove` is set (relative paths) unresolvable `..` segments are kept at
the front.  `acc` is the reversed stack of resolved segments. -/
def normSegs (allowAbove : Bool) : List JStr → List JStr → List JStr
  | acc, [] => acc.reverse
  | acc, seg :: rest =>
    if seg == [] || seg == ['.'] then normSegs allowAbove acc rest
    else if seg == ['.', '.'] then
      match acc with
      | [] =>
        if allowAbove then normSegs allowAbove [seg] rest
        else normSegs allowAbove [] rest
      | top :: accRest =>
        if top == ['.', '.'] then normSegs allowAbove (seg :: acc) rest
        else normSegs allowAbove accRest rest
    else normSegs allowAbove (seg :: acc) rest

/-- Node `path.posix.normalize`, translated segment-wise. -/
def posixNormalize (p : JStr) : JStr :=
  if p == [] then ['.']
  else
    let abs := listStartsWith ['/'] p
    let trail := listEndsWith ['/'] p
    let body := List.intercalate ['/'] (normSegs (!abs) [] (splitOnChar '/' p))
    if body == [] then
      if abs then ['/'] else if trail then ['.', '/'] else ['.']
    else
      let body2 := if trail then body ++ ['/'] else body
      if abs then '/' :: body2 else body2

/-- Node `path.posix.isAbsolute`. -/
def posixIsAbsolute (p : JStr) : Bool :=
  listStartsWith ['/'] p

/-! ## Archive Guard (server.js v2.0 `extractZip`, lines 134-172, and
`scanZip`, v2.1.0 lines 1025-1043) -/

/-- `entry.fileName.replace(/\\/g, "/")` applied to every entry name. -/
def slashName (s : JStr) : JStr :=
  s.map (fun c => if c == '\\' then '/' else c)

/-- The metadata-entry test applied before any other check:
`name.startsWith("__MACOSX/") || name.endsWith(".DS_Store")`. -/
def isMetaEntry (name : JStr) : Bool :=
  listStartsWith "__MACOSX/".toList name || listEndsWith ".DS_Store".toList name

/-- The zip-slip test of `extractZip`/`scanZip`:
`norm.startsWith("../") || path.posix.isAbsolute(norm)`. -/
def isSlip (norm : JStr) : Bool :=
  listStartsWith ['.', '.', '/'] norm || posixIsAbsolute norm

/-- The `/^[a-zA-Z]:/` test of yauzl's `validateFileName`. -/
def isDriveLetter : JStr → Bool
  | c :: ':' :: _ =>
    (65 ≤ c.toNat && c.toNat ≤ 90) || (97 ≤ c.toNat && c.toNat ≤ 122)
  | _ => false

/-- yauzl's `validateFileName`, run on every entry's decoded name before the
`entry` event is emitted (`yauzl.open` is called with its default
`decodeStrings: true`): a backslash, an absolute path (POSIX or
drive-letter) or any `..` path segment produces an error event, which both
`scanZip` and `extractZip` surface through `zip.on("error", reject)`. -/
def validateFileName (fileName : JStr) : Option JStr :=
  if fileName.contains '\\' then
    some ("invalid characters in fileName: ".toList ++ fileName)
  else if isDriveLetter fileName || listStartsWith ['/'] fileName then
    some ("absolute path: ".toList ++ fileName)
  else if (splitOnChar '/' fileName).contains ['.', '.'] then
    some ("invalid relative path: ".toList ++ fileName)
  else none

/-- Worker of `extractZip` (server.js lines 134-172) together with yauzl's
entry delivery.  Each entry name is first validated by yauzl
(`validateFileName`); a failure there rejects the extraction.  A delivered
entry is then handled by the `entry` listener: metadata entries are skipped,
a zip-slip name rejects the whole extraction, directory entries only create
directories, and every other entry is streamed to
`path.join(destDir, norm)`.  The accumulator collects the normalized
relative paths written under the destination directory. -/
def extractZipGo : List JStr → List JStr → Except JStr (List JStr)
  | [], written => .ok written.reverse
  | fn :: rest, written =>
    match validateFileName fn with
    | some msg => .error msg
    | none =>
      let name := slashName fn
      if isMetaEntry name then extractZipGo rest written
      else
        let norm := posixNormalize name
        if isSlip norm then .error ("Zip slip detected: ".toList ++ name)
        else if listEndsWith ['/'] name then extractZipGo rest written
        else extractZipGo rest (norm :: written)

/-- `extractZip(zipPath, destDir)` over the archive's entry names: either the
first zip-slip error, or the list of relative paths written under `destDir`. -/
def extractZip (entries : List JStr) : Except JStr (List JStr) :=
  extractZipGo entries []

/-- Whether an `Except` result is an error (Node promise rejection). -/
def isErr {e a : Type} : Except e a → Bool
  | .error _ => true
  | .ok _ => false

/-- One archive entry as seen by `scanZip`: declared name and uncompressed
size. -/
structure ZEntry where
  fileName : JStr
  uncompressedSize : Nat
deriving DecidableEq

/-- Worker of `scanZip` (v2.1.0 lines 1025-1043) together with yauzl's
entry delivery (names failing yauzl's `validateFileName` reject the scan
before the `entry` listener runs): skips metadata entries, rejects zip-slip
names, and counts every non-directory entry and its declared uncompressed
size. -/
def scanZipGo : List ZEntry → Nat → Nat → Except JStr (Nat × Nat)
  | [], fileCount, totalUnzipped => .ok (fileCount, totalUnzipped)
  | e :: rest, fileCount, totalUnzipped =>
    match validateFileName e.fileName with
    | some msg => .error msg
    | none =>
      let name := slashName e.fileName
      if isMetaEntry name then scanZipGo rest fileCount totalUnzipped
      else if isSlip (posixNormalize name) then .error ("Zip slip: ".toList ++ name)
      else if listEndsWith ['/'] name then scanZipGo rest fileCount totalUnzipped
      else scanZipGo rest (fileCount + 1) (totalUnzipped + e.uncompressedSize)

/-- `scanZip(zipPath)`: `{fileCount, totalUnzipped}` or a zip-slip error. -/
def scanZip (entries : List ZEntry) : Except JStr (Nat × Nat) :=
  scanZipGo entries 0 0

/-- An entry that `scanZip` counts: not metadata, not a directory entry. -/
def isCountedFile (e : ZEntry) : Bool :=
  !isMetaEntry (slashName e.fileName) && !listEndsWith ['/'] (slashName e.fileName)

/-- The archive's file count, independent of the scan loop. -/
def archiveFileCount (entries : List ZEntry) : Nat :=
  (entries.filter isCountedFile).length

/-- The archive's cumulative uncompressed size, independent of the scan
loop. -/
def archiveTotalBytes (entries : List ZEntry) : Nat :=
  ((entries.filter isCountedFile).map (·.uncompressedSize)).sum

theorem splitOnChar_of_not_mem (sep : Char) (a : JStr) (h : sep ∉ a) :
    splitOnChar sep a = [a] := by
  induction a with
  | nil => rfl
  | cons c cs ih =>
    have hc : ¬(c == sep) = true := by
      simp only [beq_iff_eq]
      intro hcs
      exact h (hcs ▸ List.mem_cons_self c cs)
    have hcs : sep ∉ cs := fun hx => h (List.mem_cons_of_mem c hx)
    rw [splitOnChar]
    rw [if_neg hc, ih hcs]

theorem splitOnChar_append (sep : Char) (a b : JStr) (h : sep ∉ a) :
    splitOnChar sep (a ++ sep :: b) = a :: splitOnChar sep b := by
  induction a with
  | nil =>
    rw [List.nil_append, splitOnChar]
    simp
  | cons c cs ih =>
    have hc : ¬(c == sep) = true := by
      simp only [beq_iff_eq]
      intro hcs
      exact h (hcs ▸ List.mem_cons_self c cs)
    have hcs : sep ∉ cs := fun hx => h (List.mem_cons_of_mem c hx)
    rw [List.cons_append, splitOnChar, if_neg hc, ih hcs]

theorem splitOnChar_ne_nil (sep : Char) (l : JStr) : splitOnChar sep l ≠ [] := by
  induction l with
  | nil => exact fun h => List.noConfusion h
  | cons c cs ih =>
    rw [splitOnChar]
    by_cases hc : (c == sep) = true
    · rw [if_pos hc]
      exact fun h => List.noConfusion h
    · rw [if_neg hc]
      cases hsp : splitOnChar sep cs with
      | nil => exact absurd hsp ih
      | cons hh tt => exact fun h => List.noConfusion h

theorem splitOnChar_seg_no_sep (sep : Char) (l : JStr) :
    ∀ s ∈ splitOnChar sep l, sep ∉ s := by
  induction l with
  | nil =>
    intro s hs
    rw [splitOnChar] at hs
    rcases List.mem_cons.mp hs with rfl | h2
    · exact List.not_mem_nil sep
    · exact absurd h2 (List.not_mem_nil s)
  | cons c cs ih =>
    intro s hs
    rw [splitOnChar] at hs
    by_cases hc : (c == sep) = true
    · rw [if_pos hc] at hs
      rcases List.mem_cons.mp hs with rfl | h2
      · exact List.not_mem_nil sep
      · exact ih s h2
    · rw [if_neg hc] at hs
      cases hsp : splitOnChar sep cs with
      | nil => exact absurd hsp (splitOnChar_ne_nil sep cs)
      | cons hh tt =>
        rw [hsp] at hs
        rcases List.mem_cons.mp hs with rfl | h2
        · intro hm
          rcases List.mem_cons.mp hm with hsc | h3
          · rw [hsc] at hc
            exact hc (beq_self_eq_true c)
          · exact ih hh (by rw [hsp]; exact List.mem_cons_self hh tt) h3
        · exact ih s (by rw [hsp]; exact List.mem_cons_of_mem hh h2)

theorem splitOnChar_snoc_sep (sep : Char) (l : JStr) :
    splitOnChar sep (l ++ [sep]) = splitOnChar sep l ++ [[]] := by
  induction l with
  | nil =>
    rw [List.nil_append]
    simp [splitOnChar]
  | cons c cs ih =>
    rw [List.cons_append, splitOnChar, splitOnChar]
    by_cases hc : (c == sep) = true
    · rw [if_pos hc, if_pos hc, ih]
      rfl
    · rw [if_neg hc, if_neg hc, ih]
      cases hsp : splitOnChar sep cs with
      | nil => exact absurd hsp (splitOnChar_ne_nil sep cs)
      | cons hh tt => rfl

theorem splitOnChar_intercalate (sep : Char) (segs : List JStr) :
    segs ≠ [] → (∀ s ∈ segs, sep ∉ s) →
    splitOnChar sep (List.intercalate [sep] segs) = segs := by
  induction segs with
  | nil =>
    intro hne _
    exact absurd rfl hne
  | cons s rest ih =>
    intro _ hsep
    cases rest with
    | nil =>
      have hone : List.intercalate [sep] [s] = s := by
        simp [List.intercalate]
      rw [hone]
      exact splitOnChar_of_not_mem sep s (hsep s (List.mem_cons_self s []))
    | cons b l =>
      have hform : List.intercalate [sep] (s :: b :: l) =
          s ++ sep :: List.intercalate [sep] (b :: l) := by
        simp [List.intercalate, List.intersperse_cons_cons]
      rw [hform, splitOnChar_append sep s _ (hsep s (List.mem_cons_self s _))]
      rw [ih (fun h => List.noConfusion h)
        (fun x hx => hsep x (List.mem_cons_of_mem s hx))]

theorem not_mem_of_contains_false {α : Type} [BEq α] [LawfulBEq α]
    (l : List α) (a : α) (h : l.contains a = false) : a ∉ l := by
  intro hm
  have h2 : l.elem a = true := List.elem_iff.mpr hm
  rw [show (l.contains a) = l.elem a from rfl, h2] at h
  exact Bool.noConfusion h

/-- Invariant of resolved path segments: nonempty, not `.`, not `..`, no
separator. -/
def goodSeg (s : JStr) : Prop :=
  s ≠ [] ∧ s ≠ ['.'] ∧ s ≠ ['.', '.'] ∧ '/' ∉ s

theorem normSegs_good (allowAbove : Bool) (segs : List JStr) :
    ∀ acc : List JStr,
      (∀ s ∈ segs, '/' ∉ s ∧ s ≠ ['.', '.']) →
      (∀ s ∈ acc, goodSeg s) →
      ∀ s ∈ normSegs allowAbove acc segs, goodSeg s := by
  induction segs with
  | nil =>
    intro acc _ hacc s hs
    simp only [normSegs] at hs
    exact hacc s (List.mem_reverse.mp hs)
  | cons seg rest ih =>
    intro acc hsegs hacc s hs
    simp only [normSegs] at hs
    by_cases h1 : (seg == [] || seg == ['.']) = true
    · rw [if_pos h1] at hs
      exact ih acc (fun x hx => hsegs x (List.mem_cons_of_mem seg hx)) hacc s hs
    · rw [if_neg h1] at hs
      have hdd : seg ≠ ['.', '.'] := (hsegs seg (List.mem_cons_self seg rest)).2
      rw [if_neg (by simp only [beq_iff_eq]; exact hdd)] at hs
      simp only [Bool.or_eq_true, beq_iff_eq, not_or] at h1
      refine ih (seg :: acc) (fun x hx => hsegs x (List.mem_cons_of_mem seg hx)) ?_ s hs
      intro x hx
      rcases List.mem_cons.mp hx with rfl | h2
      · exact ⟨h1.1, h1.2, hdd, (hsegs x (List.mem_cons_self x rest)).1⟩
      · exact hacc x h2

theorem intercalate_head (sep : Char) (s1 : JStr) (rest : List JStr) :
    ∃ t : JStr, List.intercalate [sep] (s1 :: rest) = s1 ++ t := by
  cases rest with
  | nil =>
    refine ⟨[], ?_⟩
    simp [List.intercalate]
  | cons b l =>
    refine ⟨sep :: List.intercalate [sep] (b :: l), ?_⟩
    simp [List.intercalate, List.intersperse_cons_cons]

theorem not_slip_of_headSeg (s1 : JStr) (h : goodSeg s1) :
    ∀ t : JStr, isSlip (s1 ++ t) = false := by
  obtain ⟨h1, h2, h3, h4⟩ := h
  intro t
  rcases s1 with _ | ⟨a, _ | ⟨b, _ | ⟨c, rest⟩⟩⟩
  · exact absurd rfl h1
  · have ha : a ≠ '.' := fun hcon => h2 (by rw [hcon])
    have ha2 : a ≠ '/' := fun hcon => h4 (by rw [hcon]; exact List.mem_cons_self _ _)
    have hb1 : (('.' : Char) == a) = false :=
      beq_eq_false_iff_ne.mpr (fun hcon => ha hcon.symm)
    have hb2 : (('/' : Char) == a) = false :=
      beq_eq_false_iff_ne.mpr (fun hcon => ha2 hcon.symm)
    simp [isSlip, posixIsAbsolute, listStartsWith, hb1, hb2]
  · have ha2 : a ≠ '/' := fun hcon => h4 (by rw [hcon]; exact List.mem_cons_self _ _)
    have hb2 : (('/' : Char) == a) = false :=
      beq_eq_false_iff_ne.mpr (fun hcon => ha2 hcon.symm)
    by_cases ha : a = '.'
    · have hbne : b ≠ '.' := by
        intro hcon
        exact h3 (by rw [ha, hcon])
      have hb1 : (('.' : Char) == b) = false :=
        beq_eq_false_iff_ne.mpr (fun hcon => hbne hcon.symm)
      simp [isSlip, posixIsAbsolute, listStartsWith, hb1, hb2]
    · have hb1 : (('.' : Char) == a) = false :=
        beq_eq_false_iff_ne.mpr (fun hcon => ha hcon.symm)
      simp [isSlip, posixIsAbsolute, listStartsWith, hb1, hb2]
  · have ha2 : a ≠ '/' := fun hcon => h4 (by rw [hcon]; exact List.mem_cons_self _ _)
    have hc : c ≠ '/' := by
      intro hcon
      refine h4 ?_
      rw [hcon]
      exact List.mem_cons_of_mem a (List.mem_cons_of_mem b (List.mem_cons_self '/' rest))
    have hb2 : (('/' : Char) == a) = false :=
      beq_eq_false_iff_ne.mpr (fun hcon => ha2 hcon.symm)
    have hc1 : (('/' : Char) == c) = false :=
      beq_eq_false_iff_ne.mpr (fun hcon => hc hcon.symm)
    by_cases ha : a = '.'
    · by_cases hb : b = '.'
      · simp [isSlip, posixIsAbsolute, listStartsWith, ha, hb, hb2, hc1]
      · have hb1 : (('.' : Char) == b) = false :=
          beq_eq_false_iff_ne.mpr (fun hcon => hb hcon.symm)
        simp [isSlip, posixIsAbsolute, listStartsWith, hb1, hb2]
    · have hb1 : (('.' : Char) == a) = false :=
        beq_eq_false_iff_ne.mpr (fun hcon => ha hcon.symm)
      simp [isSlip, posixIsAbsolute, listStartsWith, hb1, hb2]

theorem posixNormalize_safe (p : JStr)
    (habs : listStartsWith ['/'] p = false)
    (hdd : ['.', '.'] ∉ splitOnChar '/' p) :
    isSlip (posixNormalize p) = false ∧
    ['.', '.'] ∉ splitOnChar '/' (posixNormalize p) := by
  have hgood : ∀ s ∈ normSegs true [] (splitOnChar '/' p), goodSeg s := by
    refine normSegs_good true (splitOnChar '/' p) [] ?_ ?_
    · intro s hs
      refine ⟨splitOnChar_seg_no_sep '/' p s hs, ?_⟩
      intro hcon
      exact hdd (hcon ▸ hs)
    · intro s hs
      exact absurd hs (List.not_mem_nil s)
  simp only [posixNormalize, habs, Bool.not_false, Bool.false_eq_true, if_false]
  by_cases hp : (p == []) = true
  · rw [if_pos hp]
    exact ⟨by decide, by decide⟩
  · rw [if_neg hp]
    by_cases hb : (List.intercalate ['/'] (normSegs true [] (splitOnChar '/' p)) == []) = true
    · rw [if_pos hb]
      by_cases htr : listEndsWith ['/'] p = true
      · rw [if_pos htr]
        exact ⟨by decide, by decide⟩
      · rw [if_neg htr]
        exact ⟨by decide, by decide⟩
    · rw [if_neg hb]
      cases houtsegs : normSegs true [] (splitOnChar '/' p) with
      | nil =>
        rw [houtsegs] at hb
        exact absurd (by simp [List.intercalate]) hb
      | cons s1 restS =>
        have hs1 : goodSeg s1 :=
          hgood s1 (by rw [houtsegs]; exact List.mem_cons_self s1 restS)
        have hallgood : ∀ s ∈ s1 :: restS, goodSeg s := by
          intro s hs
          exact hgood s (by rw [houtsegs]; exact hs)
        obtain ⟨t, hht⟩ := intercalate_head '/' s1 restS
        have hsplitI : splitOnChar '/' (List.intercalate ['/'] (s1 :: restS)) =
            s1 :: restS :=
          splitOnChar_intercalate '/' (s1 :: restS) (fun h => List.noConfusion h)
            (fun x hx => (hallgood x hx).2.2.2)
        by_cases htr : listEndsWith ['/'] p = true
        · rw [if_pos htr]
          constructor
          · rw [hht, List.append_assoc]
            exact not_slip_of_headSeg s1 hs1 (t ++ ['/'])
          · rw [splitOnChar_snoc_sep, hsplitI]
            intro hmem
            rcases List.mem_append.mp hmem with h2 | h2
            · exact (hallgood _ h2).2.2.1 rfl
            · rcases List.mem_cons.mp h2 with hq | hq
              · exact List.noConfusion hq
              · exact absurd hq (List.not_mem_nil _)
        · rw [if_neg htr]
          constructor
          · rw [hht]
            exact not_slip_of_headSeg s1 hs1 t
          · rw [hsplitI]
            intro hmem
            exact (hallgood _ hmem).2.2.1 rfl

theorem validateFileName_checks (fn : JStr) (h : validateFileName fn = none) :
    fn.contains '\\' = false ∧ listStartsWith ['/'] fn = false ∧
    (splitOnChar '/' fn).contains ['.', '.'] = false := by
  rw [validateFileName] at h
  by_cases h1 : fn.contains '\\' = true
  · rw [if_pos h1] at h
    exact Option.noConfusion h
  rw [if_neg h1] at h
  by_cases h2 : (isDriveLetter fn || listStartsWith ['/'] fn) = true
  · rw [if_pos h2] at h
    exact Option.noConfusion h
  rw [if_neg h2] at h
  by_cases h3 : (splitOnChar '/' fn).contains ['.', '.'] = true
  · rw [if_pos h3] at h
    exact Option.noConfusion h
  rw [Bool.not_eq_true] at h1 h2 h3
  exact ⟨h1, (Bool.or_eq_false_iff.mp h2).2, h3⟩

theorem slashName_id (fn : JStr) (h : fn.contains '\\' = false) :
    slashName fn = fn := by
  induction fn with
  | nil => rfl
  | cons c cs ih =>
    rw [List.contains_cons] at h
    rcases Bool.or_eq_false_iff.mp h with ⟨hc, hcs⟩
    have hc2 : (c == '\\') = false :=
      beq_eq_false_iff_ne.mpr (fun hcon => (beq_eq_false_iff_ne.mp hc) hcon.symm)
    show (if c == '\\' then '/' else c) :: slashName cs = c :: cs
    rw [hc2]
    simp only [Bool.false_eq_true, if_false]
    rw [ih hcs]

theorem validateFileName_norm_safe (fn : JStr) (h : validateFileName fn = none) :
    isSlip (posixNormalize (slashName fn)) = false ∧
    ['.', '.'] ∉ splitOnChar '/' (posixNormalize (slashName fn)) := by
  obtain ⟨h1, h2, h3⟩ := validateFileName_checks fn h
  rw [slashName_id fn h1]
  exact posixNormalize_safe fn h2 (not_mem_of_contains_false _ _ h3)

theorem extractZipGo_error_of_bad (entries : List JStr) :
    ∀ (written : List JStr) (fn : JStr), fn ∈ entries →
      isSlip (posixNormalize (slashName fn)) = true →
      isErr (extractZipGo entries written) = true := by
  induction entries with
  | nil =>
    intro written fn h
    exact absurd h (List.not_mem_nil fn)
  | cons hd tl ih =>
    intro written fn hmem hslip
    cases hv : validateFileName hd with
    | some msg =>
      simp only [extractZipGo, hv]
      rfl
    | none =>
      simp only [extractZipGo, hv]
      rcases List.mem_cons.mp hmem with rfl | htl
      · rw [(validateFileName_norm_safe fn hv).1] at hslip
        exact Bool.noConfusion hslip
      · by_cases hm : isMetaEntry (slashName hd) = true
        · rw [hm]
          simp only [if_true]
          exact ih written fn htl hslip
        · rw [Bool.not_eq_true] at hm
          rw [hm]
          simp only [Bool.false_eq_true, if_false]
          by_cases hs : isSlip (posixNormalize (slashName hd)) = true
          · rw [hs]
            simp only [if_true]
            rfl
          · rw [Bool.not_eq_true] at hs
            rw [hs]
            simp only [Bool.false_eq_true, if_false]
            by_cases hd2 : listEndsWith ['/'] (slashName hd) = true
            · rw [hd2]
              simp only [if_true]
              exact ih written fn htl hslip
            · rw [Bool.not_eq_true] at hd2
              rw [hd2]
              simp only [Bool.false_eq_true, if_false]
              exact ih _ fn htl hslip

theorem extractZipGo_ok_safe (entries : List JStr) :
    ∀ (written out : List JStr),
      (∀ p ∈ written, isSlip p = false ∧ ['.', '.'] ∉ splitOnChar '/' p) →
      extractZipGo entries written = .ok out →
      ∀ p ∈ out, isSlip p = false ∧ ['.', '.'] ∉ splitOnChar '/' p := by
  induction entries with
  | nil =>
    intro written out hsafe hok p hp
    simp only [extractZipGo] at hok
    cases hok
    exact hsafe p (List.mem_reverse.mp hp)
  | cons hd tl ih =>
    intro written out hsafe hok p hp
    cases hv : validateFileName hd with
    | some msg =>
      simp only [extractZipGo, hv] at hok
      exact Except.noConfusion hok
    | none =>
      simp only [extractZipGo, hv] at hok
      by_cases hm : isMetaEntry (slashName hd) = true
      · rw [hm] at hok
        simp only [if_true] at hok
        exact ih written out hsafe hok p hp
      · rw [Bool.not_eq_true] at hm
        rw [hm] at hok
        simp only [Bool.false_eq_true, if_false] at hok
        by_cases hs : isSlip (posixNormalize (slashName hd)) = true
        · rw [hs] at hok
          simp only [if_true] at hok
          exact Except.noConfusion hok
        · rw [Bool.not_eq_true] at hs
          rw [hs] at hok
          simp only [Bool.false_eq_true, if_false] at hok
          by_cases hd2 : listEndsWith ['/'] (slashName hd) = true
          · rw [hd2] at hok
            simp only [if_true] at hok
            exact ih written out hsafe hok p hp
          · rw [Bool.not_eq_true] at hd2
            rw [hd2] at hok
            simp only [Bool.false_eq_true, if_false] at hok
            refine ih _ out ?_ hok p hp
            intro q hq
            rcases List.mem_cons.mp hq with rfl | hq2
            · exact validateFileName_norm_safe hd hv
            · exact hsafe q hq2

/-- C1: for every archive containing an entry whose normalized path begins
with `../` or is absolute, extraction fails with a validation error — yauzl
(opened with its default `decodeStrings: true`) rejects any name with a `..`
segment or an absolute prefix before the `entry` event, and the handler's
own check rejects anything that could remain — and no file is ever written
outside the destination directory: every path a successful extraction
writes is relative, has no leading `..`, and contains no `..` segment at
all, so joining it to `destDir` stays inside `destDir`. -/
theorem c1_zip_slip_defense :
    (∀ (entries : List JStr) (fn : JStr), fn ∈ entries →
      isSlip (posixNormalize (slashName fn)) = true →
      isErr (extractZip entries) = true) ∧
    (∀ (entries out : List JStr), extractZip entries = .ok out →
      ∀ p ∈ out, isSlip p = false ∧ ['.', '.'] ∉ splitOnChar '/' p) := by
  constructor
  · intro entries fn hmem hslip
    exact extractZipGo_error_of_bad entries [] fn hmem hslip
  · intro entries out hok p hp
    refine extractZipGo_ok_safe entries [] out ?_ hok p hp
    intro q hq
    exact absurd hq (List.not_mem_nil q)

/-- C1 witness: the defense theorem applied at concrete archives. -/
theorem c1_zip_slip_defense_witness :
    isErr (extractZip ["../evil.txt".toList]) = true ∧
    (isSlip "src/app.js".toList = false ∧
      ['.', '.'] ∉ splitOnChar '/' "src/app.js".toList) := by
  constructor
  · exact c1_zip_slip_defense.1 ["../evil.txt".toList] "../evil.txt".toList
      (by decide) (by decide)
  · exact c1_zip_slip_defense.2 ["src/app.js".toList] ["src/app.js".toList]
      (by rfl) "src/app.js".toList (by decide)

/-! ## Pre-flight checks of the v2.1.0 `/build` handler (lines 880-998) -/

/-- Events observable while the v2.1.0 `/build` handler runs a job. -/
inductive BuildEvent
  | scanned
  | extracted
  | spawned (cmd : JStr)
  | prerendered
  | responded
deriving DecidableEq

/-- Outcomes of the I/O-dependent steps of the v2.1.0 handler that follow
the archive checks (subprocess exits, filesystem lookups, browser work). -/
structure BuildOracle21 where
  extractRes : Except JStr Unit
  projectRootFound : Bool
  pkgRes : Except JStr Unit
  hasVite : Bool
  installRes : Except JStr Unit
  viteBinFound : Bool
  buildRes : Except JStr Unit
  distIndexExists : Bool
  prerenderRes : Except JStr Unit
  archiveRes : Except JStr Unit

/-- The v2.1.0 `/build` handler body (lines 910-990): scan, ceiling checks,
extraction, project-root and manifest checks, `npm install`, the Vite build,
prerendering and packaging, in source order.  Returns the request outcome
together with the ordered list of observable events; `.spawned` marks each
external process launch (`runCmd`). -/
def buildHandler21 (maxFiles maxBytes : Nat) (entries : List ZEntry)
    (o : BuildOracle21) : Except JStr Unit × List BuildEvent :=
  match scanZip entries with
  | .error e => (.error e, [])
  | .ok (fileCount, totalUnzipped) =>
    if maxFiles < fileCount then
      (.error "Too many files".toList, [.scanned])
    else if maxBytes < totalUnzipped then
      (.error "Too large extracted".toList, [.scanned])
    else
      match o.extractRes with
      | .error e => (.error e, [.scanned, .extracted])
      | .ok _ =>
        if !o.projectRootFound then
          (.error "No package.json found in zip".toList, [.scanned, .extracted])
        else
          match o.pkgRes with
          | .error e => (.error e, [.scanned, .extracted])
          | .ok _ =>
            if !o.hasVite then
              (.error "Refusing build: Vite dependency not found in package.json".toList,
               [.scanned, .extracted])
            else
              match o.installRes with
              | .error e => (.error e, [.scanned, .extracted, .spawned "npm install".toList])
              | .ok _ =>
                if !o.viteBinFound then
                  (.error "Vite binary not found in node_modules after install.".toList,
                   [.scanned, .extracted, .spawned "npm install".toList])
                else
                  match o.buildRes with
                  | .error e =>
                    (.error e,
                     [.scanned, .extracted, .spawned "npm install".toList,
                      .spawned "node vite build".toList])
                  | .ok _ =>
                    if !o.distIndexExists then
                      (.error "Build finished but dist/index.html not found".toList,
                       [.scanned, .extracted, .spawned "npm install".toList,
                        .spawned "node vite build".toList])
                    else
                      match o.prerenderRes with
                      | .error e =>
                        (.error e,
                         [.scanned, .extracted, .spawned "npm install".toList,
                          .spawned "node vite build".toList, .prerendered])
                      | .ok _ =>
                        (o.archiveRes,
                         [.scanned, .extracted, .spawned "npm install".toList,
                          .spawned "node vite build".toList, .prerendered, .responded])

theorem scanZipGo_counts (entries : List ZEntry) :
    ∀ (c t fileCount totalUnzipped : Nat),
      scanZipGo entries c t = .ok (fileCount, totalUnzipped) →
      fileCount = c + archiveFileCount entries ∧
      totalUnzipped = t + archiveTotalBytes entries := by
  induction entries with
  | nil =>
    intro c t fileCount totalUnzipped h
    simp only [scanZipGo] at h
    cases h
    constructor
    · simp [archiveFileCount]
    · simp [archiveTotalBytes]
  | cons hd tl ih =>
    intro c t fileCount totalUnzipped h
    cases hv : validateFileName hd.fileName with
    | some msg =>
      simp only [scanZipGo, hv] at h
      exact Except.noConfusion h
    | none =>
      simp only [scanZipGo, hv] at h
      by_cases hm : isMetaEntry (slashName hd.fileName) = true
      · rw [hm] at h
        simp only [if_true] at h
        have hcf : isCountedFile hd = false := by
          simp [isCountedFile, hm]
        obtain ⟨h1, h2⟩ := ih c t fileCount totalUnzipped h
        constructor
        · rw [h1]
          simp [archiveFileCount, hcf]
        · rw [h2]
          simp [archiveTotalBytes, hcf]
      · rw [Bool.not_eq_true] at hm
        rw [hm] at h
        simp only [Bool.false_eq_true, if_false] at h
        by_cases hs : isSlip (posixNormalize (slashName hd.fileName)) = true
        · rw [hs] at h
          simp only [if_true] at h
          cases h
        · rw [Bool.not_eq_true] at hs
          rw [hs] at h
          simp only [Bool.false_eq_true, if_false] at h
          by_cases hd2 : listEndsWith ['/'] (slashName hd.fileName) = true
          · rw [hd2] at h
            simp only [if_true] at h
            have hcf : isCountedFile hd = false := by
              simp [isCountedFile, hd2]
            obtain ⟨h1, h2⟩ := ih c t fileCount totalUnzipped h
            constructor
            · rw [h1]
              simp [archiveFileCount, hcf]
            · rw [h2]
              simp [archiveTotalBytes, hcf]
          · rw [Bool.not_eq_true] at hd2
            rw [hd2] at h
            simp only [Bool.false_eq_true, if_false] at h
            have hcf : isCountedFile hd = true := by
              simp [isCountedFile, hm, hd2]
            obtain ⟨h1, h2⟩ := ih (c + 1) (t + hd.uncompressedSize) fileCount totalUnzipped h
            constructor
            · rw [h1]
              simp only [archiveFileCount, List.filter_cons, hcf, if_true, List.length_cons]
              omega
            · rw [h2]
              simp only [archiveTotalBytes, List.filter_cons, hcf, if_true, List.map_cons,
                List.sum_cons]
              omega

/-- C4: an archive over the file-count ceiling or the uncompressed-size
ceiling makes the v2.1.0 job fail during the pre-flight scan phase, and no
external process is spawned (no `npm install`, no build). -/
theorem c4_preflight_before_spawn (maxFiles maxBytes : Nat)
    (entries : List ZEntry) (o : BuildOracle21)
    (h : maxFiles < archiveFileCount entries ∨ maxBytes < archiveTotalBytes entries) :
    isErr (buildHandler21 maxFiles maxBytes entries o).1 = true ∧
    ∀ cmd, BuildEvent.spawned cmd ∉ (buildHandler21 maxFiles maxBytes entries o).2 := by
  unfold buildHandler21
  cases hscan : scanZip entries with
  | error e =>
    constructor
    · rfl
    · intro cmd hmem
      exact absurd hmem (List.not_mem_nil _)
  | ok ct =>
    obtain ⟨fileCount, totalUnzipped⟩ := ct
    obtain ⟨h1, h2⟩ := scanZipGo_counts entries 0 0 fileCount totalUnzipped hscan
    rw [Nat.zero_add] at h1 h2
    dsimp only
    by_cases hf : maxFiles < fileCount
    · rw [if_pos hf]
      constructor
      · rfl
      · intro cmd hmem
        simp at hmem
    · rw [if_neg hf]
      have hb : maxBytes < totalUnzipped := by
        rcases h with h | h
        · omega
        · omega
      rw [if_pos hb]
      constructor
      · rfl
      · intro cmd hmem
        simp at hmem

/-- C4 witness: the pre-flight theorem applied at a one-file archive with a
zero file-count ceiling. -/
theorem c4_preflight_before_spawn_witness :
    isErr (buildHandler21 0 1000 [ZEntry.mk "a.txt".toList 5]
      (BuildOracle21.mk (.ok ()) true (.ok ()) true (.ok ()) true (.ok ()) true
        (.ok ()) (.ok ()))).1 = true :=
  (c4_preflight_before_spawn 0 1000 [ZEntry.mk "a.txt".toList 5]
    (BuildOracle21.mk (.ok ()) true (.ok ()) true (.ok ()) true (.ok ()) true
      (.ok ()) (.ok ())) (Or.inl (by decide))).1

/-! ## Download Authorizer (v2.9.0 `signDownloadToken` / `verifyDownloadToken`,
lines 1959-1982, and `authenticateDownload`, lines 1999-2011) -/

/-- One decimal digit rendered as a character (JS template `${n}`). -/
def digitChar (d : Nat) : Char :=
  match d with
  | 0 => '0'
  | 1 => '1'
  | 2 => '2'
  | 3 => '3'
  | 4 => '4'
  | 5 => '5'
  | 6 => '6'
  | 7 => '7'
  | 8 => '8'
  | _ => '9'

/-- The numeric value of a decimal digit character. -/
def digitVal (c : Char) : Nat := c.toNat - 48

/-- Decimal rendering of a natural number (JS template `${n}`), big-endian. -/
def natToChars (n : Nat) : JStr :=
  if n = 0 then ['0'] else ((Nat.digits 10 n).map digitChar).reverse

/-- Decimal digit test. -/
def isDigitCh (c : Char) : Bool :=
  48 ≤ c.toNat && c.toNat ≤ 57

/-- Model of JS `Number(expStr)` restricted to the outcomes `verifyDownloadToken`
distinguishes: a plain decimal string parses to its value; everything else
(`NaN`, negatives, empty) leads to rejection and is mapped to `none`. -/
def parseNat (s : JStr) : Option Nat :=
  if !s.isEmpty && s.all isDigitCh then
    some (s.foldl (fun acc c => acc * 10 + digitVal c) 0)
  else none

theorem digitVal_digitChar (d : Nat) (h : d < 10) : digitVal (digitChar d) = d := by
  interval_cases d <;> decide

theorem isDigitCh_digitChar (d : Nat) (h : d < 10) : isDigitCh (digitChar d) = true := by
  interval_cases d <;> decide

theorem digitChar_ne_dot (d : Nat) (h : d < 10) : digitChar d ≠ '.' := by
  interval_cases d <;> decide

theorem foldl_digits (L : List Nat) (hL : ∀ d ∈ L, d < 10) (a : Nat) :
    List.foldl (fun acc c => acc * 10 + digitVal c) a ((L.map digitChar).reverse) =
      a * 10 ^ L.length + Nat.ofDigits 10 L := by
  induction L generalizing a with
  | nil =>
    simp [Nat.ofDigits_nil]
  | cons d L ih =>
    have hd : d < 10 := hL d (List.mem_cons_self d L)
    have hL2 : ∀ x ∈ L, x < 10 := fun x hx => hL x (List.mem_cons_of_mem d hx)
    rw [List.map_cons, List.reverse_cons, List.foldl_append, ih hL2 a]
    simp only [List.foldl_cons, List.foldl_nil, Nat.ofDigits_cons, Nat.cast_id,
      digitVal_digitChar d hd, List.length_cons]
    ring

theorem parseNat_natToChars (n : Nat) : parseNat (natToChars n) = some n := by
  by_cases h0 : n = 0
  · subst h0
    decide
  · have hne : Nat.digits 10 n ≠ [] := Nat.digits_ne_nil_iff_ne_zero.mpr h0
    have hlt : ∀ d ∈ Nat.digits 10 n, d < 10 :=
      fun d hd => Nat.digits_lt_base (by norm_num) hd
    rw [natToChars, if_neg h0, parseNat]
    have hnonempty : (((Nat.digits 10 n).map digitChar).reverse).isEmpty = false := by
      rw [List.isEmpty_eq_false_iff_exists_mem]
      obtain ⟨d, L, hdl⟩ := List.exists_cons_of_ne_nil hne
      exact ⟨digitChar d, by rw [hdl]; simp⟩
    have hall : (((Nat.digits 10 n).map digitChar).reverse).all isDigitCh = true := by
      rw [List.all_eq_true]
      intro c hc
      rw [List.mem_reverse, List.mem_map] at hc
      obtain ⟨d, hd, rfl⟩ := hc
      exact isDigitCh_digitChar d (hlt d hd)
    rw [hnonempty, hall]
    simp only [Bool.not_false, Bool.and_self, if_true]
    rw [foldl_digits (Nat.digits 10 n) hlt 0, Nat.zero_mul, Nat.zero_add,
      Nat.ofDigits_digits]

theorem dot_not_mem_natToChars (n : Nat) : '.' ∉ natToChars n := by
  by_cases h0 : n = 0
  · subst h0
    decide
  · rw [natToChars, if_neg h0]
    intro hmem
    rw [List.mem_reverse, List.mem_map] at hmem
    obtain ⟨d, hd, hdc⟩ := hmem
    exact digitChar_ne_dot d (Nat.digits_lt_base (by norm_num) hd) hdc


/-- The XOR-and-OR accumulator of `crypto.timingSafeEqual`: every aligned
character pair is examined and folded into the accumulator, with no early
exit on a mismatch. -/
def ctFold : JStr → JStr → Nat → Nat
  | [], _, acc => acc
  | _ :: _, [], acc => acc
  | a :: as, b :: bs, acc => ctFold as bs (acc ||| (a.toNat ^^^ b.toNat))

/-- `crypto.timingSafeEqual(Buffer.from(sig), Buffer.from(expected))`. -/
def timingSafeEqual (a b : JStr) : Bool :=
  ctFold a b 0 == 0

theorem or_eq_zero_left {a b : Nat} (h : a ||| b = 0) : a = 0 := by
  by_contra h0
  obtain ⟨i, hi⟩ := Nat.ne_zero_implies_bit_true h0
  have h2 : (a ||| b).testBit i = true := by
    rw [Nat.testBit_or, hi]
    rfl
  rw [h] at h2
  simp [Nat.zero_testBit] at h2

theorem ctFold_self (as : JStr) : ∀ acc, ctFold as as acc = acc := by
  induction as with
  | nil => intro acc; rfl
  | cons a as ih =>
    intro acc
    rw [ctFold, Nat.xor_self, Nat.or_zero]
    exact ih acc

theorem ctFold_acc_zero (as : JStr) :
    ∀ (bs : JStr) (acc : Nat), ctFold as bs acc = 0 → acc = 0 := by
  induction as with
  | nil => intro bs acc h; exact h
  | cons a as ih =>
    intro bs acc h
    cases bs with
    | nil => exact h
    | cons b bs =>
      rw [ctFold] at h
      exact or_eq_zero_left (ih bs _ h)

theorem char_eq_of_toNat_eq {c d : Char} (h : c.toNat = d.toNat) : c = d :=
  Char.eq_of_val_eq (UInt32.toNat.inj h)

theorem ctFold_zero_eq (as : JStr) :
    ∀ bs : JStr, as.length = bs.length → ctFold as bs 0 = 0 → as = bs := by
  induction as with
  | nil =>
    intro bs hlen _
    cases bs with
    | nil => rfl
    | cons b bs => exact absurd hlen (by simp)
  | cons a as ih =>
    intro bs hlen h
    cases bs with
    | nil => exact absurd hlen (by simp)
    | cons b bs =>
      rw [ctFold, Nat.zero_or] at h
      have hx : a.toNat ^^^ b.toNat = 0 := ctFold_acc_zero as bs _ h
      have hab : a = b := char_eq_of_toNat_eq (Nat.xor_eq_zero.mp hx)
      rw [hx] at h
      have := ih bs (by simpa using hlen) h
      rw [hab, this]

theorem timingSafeEqual_iff (a b : JStr) (hlen : a.length = b.length) :
    timingSafeEqual a b = true ↔ a = b := by
  constructor
  · intro h
    rw [timingSafeEqual, beq_iff_eq] at h
    exact ctFold_zero_eq a b hlen h
  · rintro rfl
    rw [timingSafeEqual, ctFold_self a 0]
    rfl

/-- `signDownloadToken(jobId, ttlSeconds)` (lines 1959-1964):
`jobId.exp.sig` where `exp = now + ttl` in epoch seconds and `sig` is the
keyed digest of `jobId.exp`.  The digest function is a parameter (the HMAC
itself lives in Node's crypto library). -/
def signDownloadToken (hmac : JStr → JStr → JStr) (key jobId : JStr)
    (ttlSeconds now : Nat) : JStr :=
  let exp := now + ttlSeconds
  let data := jobId ++ '.' :: natToChars exp
  data ++ '.' :: hmac key data

/-- `verifyDownloadToken(token)` (lines 1966-1982): split on `.`, require
exactly three parts, a truthy jobId/exp/sig, an unexpired exp, matching
digest length and a timing-safe digest match; returns the token's jobId. -/
def verifyDownloadToken (hmac : JStr → JStr → JStr) (key token : JStr)
    (now : Nat) : Option JStr :=
  match splitOnChar '.' token with
  | [jobId, expStr, sig] =>
    match parseNat expStr with
    | none => none
    | some exp =>
      if jobId.isEmpty || exp == 0 || sig.isEmpty then none
      else if exp < now then none
      else
        let expected := hmac key (jobId ++ '.' :: natToChars exp)
        if expected.length != sig.length then none
        else if timingSafeEqual sig expected then some jobId else none
  | _ => none

/-- The `?t=` branch of `authenticateDownload` (lines 2005-2009): a token
authorizes a request exactly when it verifies and its embedded jobId equals
the requested one. -/
def tokenAuthorizes (hmac : JStr → JStr → JStr) (key token : JStr)
    (now : Nat) (reqJobId : JStr) : Bool :=
  match verifyDownloadToken hmac key token now with
  | some j => j == reqJobId
  | none => false

theorem verify_sign_valid (hmac : JStr → JStr → JStr) (key jobId : JStr)
    (ttl now t : Nat)
    (hdot : ∀ k d, '.' ∉ hmac k d) (hne : ∀ k d, hmac k d ≠ [])
    (hjne : jobId ≠ []) (hjdot : '.' ∉ jobId) (hexp : 0 < now + ttl)
    (ht : t ≤ now + ttl) :
    verifyDownloadToken hmac key (signDownloadToken hmac key jobId ttl now) t =
      some jobId := by
  have hsplit : splitOnChar '.' (signDownloadToken hmac key jobId ttl now) =
      [jobId, natToChars (now + ttl),
       hmac key (jobId ++ '.' :: natToChars (now + ttl))] := by
    simp only [signDownloadToken]
    rw [List.append_assoc, List.cons_append,
      splitOnChar_append '.' jobId _ hjdot,
      splitOnChar_append '.' (natToChars (now + ttl)) _ (dot_not_mem_natToChars _),
      splitOnChar_of_not_mem '.' _ (hdot key _)]
  simp only [verifyDownloadToken, hsplit, parseNat_natToChars]
  have hj : jobId.isEmpty = false := by
    cases jobId with
    | nil => exact absurd rfl hjne
    | cons c cs => rfl
  have hs : (hmac key (jobId ++ '.' :: natToChars (now + ttl))).isEmpty = false := by
    cases hmk : hmac key (jobId ++ '.' :: natToChars (now + ttl)) with
    | nil => exact absurd hmk (hne key _)
    | cons c cs => rfl
  have he : ((now + ttl) == 0) = false := by
    simp only [beq_eq_false_iff_ne, ne_eq]
    omega
  rw [hj, hs, he]
  simp only [Bool.or_self, Bool.or_false, Bool.false_eq_true, if_false]
  rw [if_neg (Nat.not_lt.mpr ht)]
  rw [bne_self_eq_false]
  simp only [Bool.false_eq_true, if_false]
  rw [if_pos ((timingSafeEqual_iff _ _ rfl).mpr rfl)]

theorem verify_sign_expired (hmac : JStr → JStr → JStr) (key jobId : JStr)
    (ttl now t : Nat)
    (hdot : ∀ k d, '.' ∉ hmac k d) (hjdot : '.' ∉ jobId)
    (ht : now + ttl < t) :
    verifyDownloadToken hmac key (signDownloadToken hmac key jobId ttl now) t =
      none := by
  have hsplit : splitOnChar '.' (signDownloadToken hmac key jobId ttl now) =
      [jobId, natToChars (now + ttl),
       hmac key (jobId ++ '.' :: natToChars (now + ttl))] := by
    simp only [signDownloadToken]
    rw [List.append_assoc, List.cons_append,
      splitOnChar_append '.' jobId _ hjdot,
      splitOnChar_append '.' (natToChars (now + ttl)) _ (dot_not_mem_natToChars _),
      splitOnChar_of_not_mem '.' _ (hdot key _)]
  simp only [verifyDownloadToken, hsplit, parseNat_natToChars]
  by_cases hcond : (jobId.isEmpty || (now + ttl) == 0 ||
      (hmac key (jobId ++ '.' :: natToChars (now + ttl))).isEmpty) = true
  · rw [if_pos hcond]
  · rw [if_neg hcond, if_pos ht]

theorem verify_not_three_parts (hmac : JStr → JStr → JStr) (key token : JStr)
    (now : Nat) (h : (splitOnChar '.' token).length ≠ 3) :
    verifyDownloadToken hmac key token now = none := by
  rw [verifyDownloadToken]
  rcases hs : splitOnChar '.' token with _ | ⟨a, _ | ⟨b, _ | ⟨c, _ | ⟨d, rest⟩⟩⟩⟩
  · rfl
  · rfl
  · rfl
  · rw [hs] at h
    exact absurd rfl h
  · rfl

/-- C2: a download token issued for a jobId (a nonempty dot-free identifier,
as produced by uuidv4, signed with a dot-free nonempty hex digest) verifies
to that jobId at any time up to its expiry, is rejected once the expiry has
passed, never authorizes a different jobId, and any string that does not
split into exactly three dot-separated parts is rejected; the digest
comparison examines every character pair and agrees with equality on
equal-length inputs. -/
theorem c2_download_token (hmac : JStr → JStr → JStr) (key jobId : JStr)
    (ttl now t : Nat)
    (hdot : ∀ k d, '.' ∉ hmac k d) (hne : ∀ k d, hmac k d ≠ [])
    (hjne : jobId ≠ []) (hjdot : '.' ∉ jobId) (hexp : 0 < now + ttl) :
    (t ≤ now + ttl →
      verifyDownloadToken hmac key (signDownloadToken hmac key jobId ttl now) t =
        some jobId) ∧
    (now + ttl < t →
      verifyDownloadToken hmac key (signDownloadToken hmac key jobId ttl now) t =
        none) ∧
    (∀ other : JStr, other ≠ jobId →
      tokenAuthorizes hmac key (signDownloadToken hmac key jobId ttl now) t other =
        false) ∧
    (∀ token : JStr, (splitOnChar '.' token).length ≠ 3 →
      verifyDownloadToken hmac key token t = none) ∧
    (∀ a b : JStr, a.length = b.length → (timingSafeEqual a b = true ↔ a = b)) := by
  refine ⟨?_, ?_, ?_, ?_, ?_⟩
  · intro ht
    exact verify_sign_valid hmac key jobId ttl now t hdot hne hjne hjdot hexp ht
  · intro ht
    exact verify_sign_expired hmac key jobId ttl now t hdot hjdot ht
  · intro other hother
    rw [tokenAuthorizes]
    by_cases ht : t ≤ now + ttl
    · rw [verify_sign_valid hmac key jobId ttl now t hdot hne hjne hjdot hexp ht]
      simp only [beq_eq_false_iff_ne, ne_eq]
      exact fun hj => hother hj.symm
    · rw [verify_sign_expired hmac key jobId ttl now t hdot hjdot (by omega)]
  · intro token htok
    exact verify_not_three_parts hmac key token t htok
  · intro a b hlen
    exact timingSafeEqual_iff a b hlen

/-- C2 witness: the token theorem at a concrete digest, key, jobId and
clock. -/
theorem c2_download_token_witness :
    verifyDownloadToken (fun _ _ => "abcd".toList) "k".toList
      (signDownloadToken (fun _ _ => "abcd".toList) "k".toList "job1".toList 60 100)
      160 = some "job1".toList :=
  (c2_download_token (fun _ _ => "abcd".toList) "k".toList "job1".toList 60 100 160
    (fun _ _ => show ('.' : Char) ∉ "abcd".toList by decide)
    (fun _ _ => show "abcd".toList ≠ [] by decide) (by decide) (by decide)
    (by decide)).1 (by decide)

/-! ## Route parsing (v2.1.0 `parseRoutesFromRequest`, lines 1093-1116; same
function in `src/unnamed/part_001` lines 344-386) -/

/-- The JS `\s` / `trim()` whitespace class (WhiteSpace ∪ LineTerminator),
by code point. -/
def isJsWhitespace (c : Char) : Bool :=
  c.toNat == 32 || c.toNat == 9 || c.toNat == 10 || c.toNat == 11 ||
  c.toNat == 12 || c.toNat == 13 || c.toNat == 0xa0 || c.toNat == 0x1680 ||
  (0x2000 ≤ c.toNat && c.toNat ≤ 0x200a) || c.toNat == 0x2028 ||
  c.toNat == 0x2029 || c.toNat == 0x202f || c.toNat == 0x205f ||
  c.toNat == 0x3000 || c.toNat == 0xfeff

/-- JS LineTerminator code points (which `.` in a regex never matches). -/
def isLineTerm (c : Char) : Bool :=
  c.toNat == 10 || c.toNat == 13 || c.toNat == 0x2028 || c.toNat == 0x2029

/-- JS `String.prototype.trim`. -/
def jsTrim (s : JStr) : JStr :=
  ((s.dropWhile isJsWhitespace).reverse.dropWhile isJsWhitespace).reverse

/-- JS `r.replace(/[?#].*$/, "")`: the regex matches at the first `?` or `#`
that is followed by no line terminator (`.` does not match line terminators
and `$` without the `m` flag only matches at the very end), and the match
runs to the end of the string.  A delimiter separated from the end by a
newline therefore survives. -/
def stripQueryHash : JStr → JStr
  | [] => []
  | c :: rest =>
    if (c == '?' || c == '#') && rest.all (fun d => !isLineTerm d) then []
    else c :: stripQueryHash rest

/-- JS `r.replace(/^\/+/, "/")`. -/
def collapseLeadingSlashes (s : JStr) : JStr :=
  match s with
  | '/' :: _ => '/' :: s.dropWhile (· == '/')
  | _ => s

/-- JS `r.includes("..")`. -/
def includesDotDot : JStr → Bool
  | [] => false
  | '.' :: '.' :: _ => true
  | _ :: rest => includesDotDot rest

/-- JS `new Set(...)` iteration order: first occurrences, in order. -/
def dedupeFirst (seen : List JStr) : List JStr → List JStr
  | [] => []
  | x :: xs =>
    if x ∈ seen then dedupeFirst seen xs
    else x :: dedupeFirst (x :: seen) xs

/-- The `cleaned` pipeline of `parseRoutesFromRequest` (v2.1.0 lines
1102-1107): trim, drop empties, ensure a leading slash, strip query/hash,
collapse leading slashes, delete whitespace, then filter. -/
def cleanedRoutes (parsed : List JStr) : List JStr :=
  ((((parsed.map jsTrim).filter (fun r => !r.isEmpty)).map
      (fun r => if listStartsWith ['/'] r then r else '/' :: r)).map
      (fun r => (collapseLeadingSlashes (stripQueryHash r)).filter
        (fun c => !isJsWhitespace c))).filter
    (fun r => listStartsWith ['/'] r && !includesDotDot r && decide (r.length < 200))

/-- `const uniq = [...new Set(cleaned)]` (line 1109). -/
def uniqRoutes (parsed : List JStr) : List JStr :=
  dedupeFirst [] (cleanedRoutes parsed)

/-- `if (uniq.length > PRERENDER_MAX_ROUTES) uniq.length = PRERENDER_MAX_ROUTES`
(line 1110). -/
def cappedRoutes (maxRoutes : Nat) (parsed : List JStr) : List JStr :=
  if maxRoutes < (uniqRoutes parsed).length then (uniqRoutes parsed).take maxRoutes
  else uniqRoutes parsed

/-- `if (uniq.length > 0 && !uniq.includes("/")) uniq.unshift("/")` (line
1111) — note this runs after the truncation. -/
def rootedRoutes (maxRoutes : Nat) (parsed : List JStr) : List JStr :=
  if cappedRoutes maxRoutes parsed ≠ [] ∧ ['/'] ∉ cappedRoutes maxRoutes parsed then
    ['/'] :: cappedRoutes maxRoutes parsed
  else cappedRoutes maxRoutes parsed

/-- `parseRoutesFromRequest` (v2.1.0 lines 1093-1116) applied to the decoded
routes array (after `JSON.parse` and `String(...)` coercion): the cleaned,
deduplicated, capped, rooted list, stably sorted shallowest-first by slash
count (`uniq.sort((a, b) => depthA - depthB)`; ECMAScript sorts are stable,
and a stable sort for this comparator is computed by stable insertion
sort). -/
def parseRoutesFromRequest (maxRoutes : Nat) (parsed : List JStr) : List JStr :=
  (rootedRoutes maxRoutes parsed).insertionSort
    (fun a b => a.count '/' ≤ b.count '/')

theorem cleanedRoutes_props (parsed : List JStr) :
    ∀ r ∈ cleanedRoutes parsed,
      listStartsWith ['/'] r = true ∧ includesDotDot r = false ∧
      r.length < 200 ∧ ∀ c ∈ r, isJsWhitespace c = false := by
  intro r hr
  rw [cleanedRoutes, List.mem_filter] at hr
  obtain ⟨hmem, hcond⟩ := hr
  simp only [Bool.and_eq_true, Bool.not_eq_true', decide_eq_true_eq] at hcond
  obtain ⟨⟨h1, h2⟩, h3⟩ := hcond
  refine ⟨h1, h2, h3, ?_⟩
  rw [List.mem_map] at hmem
  obtain ⟨x, _, rfl⟩ := hmem
  intro c hc
  rw [List.mem_filter] at hc
  simpa using hc.2

theorem dedupeFirst_subset (l : List JStr) :
    ∀ (seen : List JStr) (x : JStr), x ∈ dedupeFirst seen l → x ∈ l := by
  induction l with
  | nil =>
    intro seen x h
    exact absurd h (List.not_mem_nil x)
  | cons y ys ih =>
    intro seen x h
    rw [dedupeFirst] at h
    by_cases hy : y ∈ seen
    · rw [if_pos hy] at h
      exact List.mem_cons_of_mem y (ih seen x h)
    · rw [if_neg hy] at h
      rcases List.mem_cons.mp h with rfl | h2
      · exact List.mem_cons_self x ys
      · exact List.mem_cons_of_mem y (ih (y :: seen) x h2)

theorem dedupeFirst_nodup (l : List JStr) :
    ∀ seen : List JStr,
      (dedupeFirst seen l).Nodup ∧ ∀ x ∈ dedupeFirst seen l, x ∉ seen := by
  induction l with
  | nil =>
    intro seen
    exact ⟨List.nodup_nil, fun x h => absurd h (List.not_mem_nil x)⟩
  | cons y ys ih =>
    intro seen
    rw [dedupeFirst]
    by_cases hy : y ∈ seen
    · rw [if_pos hy]
      exact ih seen
    · rw [if_neg hy]
      obtain ⟨hnd, hnotin⟩ := ih (y :: seen)
      constructor
      · rw [List.nodup_cons]
        refine ⟨fun hmem => ?_, hnd⟩
        exact hnotin y hmem (List.mem_cons_self y seen)
      · intro x hx
        rcases List.mem_cons.mp hx with rfl | h2
        · exact hy
        · intro hxs
          exact hnotin x h2 (List.mem_cons_of_mem y hxs)

theorem rootedRoutes_mem (maxRoutes : Nat) (parsed : List JStr) :
    ∀ r ∈ rootedRoutes maxRoutes parsed, r = ['/'] ∨ r ∈ cleanedRoutes parsed := by
  intro r hr
  have hcap : ∀ x ∈ cappedRoutes maxRoutes parsed, x ∈ cleanedRoutes parsed := by
    intro x hx
    rw [cappedRoutes] at hx
    by_cases hc : maxRoutes < (uniqRoutes parsed).length
    · rw [if_pos hc] at hx
      exact dedupeFirst_subset _ [] x (List.mem_of_mem_take hx)
    · rw [if_neg hc] at hx
      exact dedupeFirst_subset _ [] x hx
  rw [rootedRoutes] at hr
  by_cases hif : cappedRoutes maxRoutes parsed ≠ [] ∧
      ['/'] ∉ cappedRoutes maxRoutes parsed
  · rw [if_pos hif] at hr
    rcases List.mem_cons.mp hr with rfl | h2
    · exact Or.inl rfl
    · exact Or.inr (hcap r h2)
  · rw [if_neg hif] at hr
    exact Or.inr (hcap r hr)

theorem rootedRoutes_nodup (maxRoutes : Nat) (parsed : List JStr) :
    (rootedRoutes maxRoutes parsed).Nodup := by
  have huniq : (uniqRoutes parsed).Nodup := (dedupeFirst_nodup _ []).1
  have hcap : (cappedRoutes maxRoutes parsed).Nodup := by
    rw [cappedRoutes]
    by_cases hc : maxRoutes < (uniqRoutes parsed).length
    · rw [if_pos hc]
      exact huniq.sublist (List.take_sublist maxRoutes _)
    · rw [if_neg hc]
      exact huniq
  rw [rootedRoutes]
  by_cases hif : cappedRoutes maxRoutes parsed ≠ [] ∧
      ['/'] ∉ cappedRoutes maxRoutes parsed
  · rw [if_pos hif]
    exact List.nodup_cons.mpr ⟨hif.2, hcap⟩
  · rw [if_neg hif]
    exact hcap

theorem rootedRoutes_root_mem (maxRoutes : Nat) (parsed : List JStr)
    (h : rootedRoutes maxRoutes parsed ≠ []) :
    ['/'] ∈ rootedRoutes maxRoutes parsed := by
  rw [rootedRoutes]
  by_cases hif : cappedRoutes maxRoutes parsed ≠ [] ∧
      ['/'] ∉ cappedRoutes maxRoutes parsed
  · rw [if_pos hif]
    exact List.mem_cons_self _ _
  · rw [if_neg hif]
    rw [rootedRoutes, if_neg hif] at h
    rcases not_and_or.mp hif with hnil | hmem
    · exact absurd (not_not.mp hnil) h
    · exact not_not.mp hmem

theorem rootedRoutes_length (maxRoutes : Nat) (parsed : List JStr) :
    (rootedRoutes maxRoutes parsed).length ≤ maxRoutes + 1 := by
  have hcap : (cappedRoutes maxRoutes parsed).length ≤ maxRoutes := by
    rw [cappedRoutes]
    by_cases hc : maxRoutes < (uniqRoutes parsed).length
    · rw [if_pos hc]
      simp [List.length_take_le]
    · rw [if_neg hc]
      omega
  rw [rootedRoutes]
  by_cases hif : cappedRoutes maxRoutes parsed ≠ [] ∧
      ['/'] ∉ cappedRoutes maxRoutes parsed
  · rw [if_pos hif]
    simpa using hcap
  · rw [if_neg hif]
    omega

/-- C10 counterexample: with a route cap of 2, the two routes `/a` and `/b`
yield three routes (the root is prepended after the cap is applied); and a
query delimiter followed by a newline survives sanitization (the regex
`[?#].*$` cannot match across the line terminator, which the later
whitespace removal then deletes). -/
theorem c10_counterexample :
    (parseRoutesFromRequest 2 ["/a".toList, "/b".toList]).length = 3 ∧
    parseRoutesFromRequest 5 ["/a?b\nc".toList] =
      ["/".toList, "/a?bc".toList] := by
  constructor
  · decide
  · decide

/-- C10 (amended): every returned route starts with `/`, contains no `..`
and no whitespace, and is shorter than 200 characters; the list is
deduplicated; a non-empty result always contains the root route `/`; and the
result length is at most `PRERENDER_MAX_ROUTES + 1` — one more than the
configured cap, because the root route is prepended after truncation.
Query/hash suffixes are stripped only when no line terminator follows the
delimiter. -/
theorem c10_route_sanitation (maxRoutes : Nat) (parsed : List JStr) :
    (∀ r ∈ parseRoutesFromRequest maxRoutes parsed,
      listStartsWith ['/'] r = true ∧ includesDotDot r = false ∧
      r.length < 200 ∧ ∀ c ∈ r, isJsWhitespace c = false) ∧
    (parseRoutesFromRequest maxRoutes parsed).Nodup ∧
    (parseRoutesFromRequest maxRoutes parsed ≠ [] →
      ['/'] ∈ parseRoutesFromRequest maxRoutes parsed) ∧
    (parseRoutesFromRequest maxRoutes parsed).length ≤ maxRoutes + 1 := by
  have hperm := List.perm_insertionSort
    (fun a b : JStr => a.count '/' ≤ b.count '/') (rootedRoutes maxRoutes parsed)
  refine ⟨?_, ?_, ?_, ?_⟩
  · intro r hr
    have hr2 : r ∈ rootedRoutes maxRoutes parsed := hperm.mem_iff.mp hr
    rcases rootedRoutes_mem maxRoutes parsed r hr2 with rfl | hclean
    · refine ⟨rfl, rfl, by decide, ?_⟩
      intro c hc
      rcases List.mem_cons.mp hc with rfl | h2
      · rfl
      · exact absurd h2 (List.not_mem_nil c)
    · exact cleanedRoutes_props parsed r hclean
  · exact hperm.nodup_iff.mpr (rootedRoutes_nodup maxRoutes parsed)
  · intro hne
    refine hperm.mem_iff.mpr (rootedRoutes_root_mem maxRoutes parsed ?_)
    intro hnil
    rw [parseRoutesFromRequest, hnil] at hne
    exact hne rfl
  · rw [parseRoutesFromRequest, hperm.length_eq]
    exact rootedRoutes_length maxRoutes parsed

/-- C10 witness: the sanitation theorem at a concrete request. -/
theorem c10_route_sanitation_witness :
    ['/'] ∈ parseRoutesFromRequest 10 ["/about".toList] :=
  (c10_route_sanitation 10 ["/about".toList]).2.2.1 (by decide)

/-! ## Render Farm (v2.1.0 `prerenderDistToFiles`, lines 1151-1210, and
v2.9.0 `prerenderRoutes`, lines 2361-2470) -/

/-- `routeToOutfile` (v2.1.0 lines 1146-1149), as a path relative to
`distDir`: strip leading and trailing slashes; an empty remainder writes the
root index document. -/
def routeToOutfile (routePath : JStr) : JStr :=
  let clean := ((routePath.dropWhile (· == '/')).reverse.dropWhile (· == '/')).reverse
  if clean.isEmpty then "index.html".toList else clean ++ "/index.html".toList

/-- The batch loop header of `prerenderDistToFiles` (line 1163):
`for (let i = 0; i < routes.length; i += PRERENDER_CONCURRENCY)` with
`routes.slice(i, i + PRERENDER_CONCURRENCY)`. -/
def sliceBatches {α : Type} (c : Nat) (l : List α) : List (List α) :=
  match l with
  | [] => []
  | x :: xs => (x :: xs.take (c - 1)) :: sliceBatches c (xs.drop (c - 1))
termination_by l.length
decreasing_by
  simp only [List.length_cons, List.length_drop]
  omega

/-- The accumulated outcome of a prerender run: the `(file, contents)` writes
performed under `distDir`, the success counter and the failed routes. -/
structure RenderOutcome where
  writes : List (JStr × JStr)
  success : Nat
  failed : List JStr
deriving DecidableEq

/-- The per-route body of `prerenderDistToFiles` (lines 1165-1197).
`render route` abstracts opening a page, navigating and capturing
`page.content()` (`none` when navigation/capture throws).  Captured markup
shorter than 500 characters is rejected (`throw new Error("Empty page")`),
and every failure writes a fallback copy of the root index document at the
route's expected output location. -/
def renderStep (render : JStr → Option JStr) (fallback : JStr)
    (acc : RenderOutcome) (route : JStr) : RenderOutcome :=
  match render route with
  | some html =>
    if html.length < 500 then
      RenderOutcome.mk (acc.writes ++ [(routeToOutfile route, fallback)])
        acc.success (acc.failed ++ [route])
    else
      RenderOutcome.mk (acc.writes ++ [(routeToOutfile route, html)])
        (acc.success + 1) acc.failed
  | none =>
    RenderOutcome.mk (acc.writes ++ [(routeToOutfile route, fallback)])
      acc.success (acc.failed ++ [route])

/-- `prerenderDistToFiles(distDir, routes, jobId)` (lines 1151-1210):
batches of `concurrency` routes are processed batch by batch. -/
def prerenderDistToFiles (render : JStr → Option JStr) (fallback : JStr)
    (concurrency : Nat) (routes : List JStr) : RenderOutcome :=
  (sliceBatches concurrency routes).foldl
    (fun acc batch => batch.foldl (renderStep render fallback) acc)
    (RenderOutcome.mk [] 0 [])

/-- Environment of the v2.9.0 `prerenderRoutes`: whether `playwright-chromium`
imports, whether the static server starts, whether the browser launches, and
the per-route page result. -/
structure Prerender29Env where
  playwrightAvailable : Bool
  serverOk : Bool
  launchOk : Bool
  render : JStr → Option JStr

/-- Result record of the v2.9.0 `prerenderRoutes`, plus the writes it
performed. -/
structure Prerender29Result where
  success : List JStr
  failed : List JStr
  skipped : Bool
  writes : List (JStr × JStr)
deriving DecidableEq

/-- `route.startsWith('/') ? route : '/' + route` (line 2406). -/
def cleanRoute29 (r : JStr) : JStr :=
  if listStartsWith ['/'] r then r else '/' :: r

/-- Output file of a v2.9.0 prerendered route (lines 2433-2441), relative to
`distDir`. -/
def outFile29 (cleanRoute : JStr) : JStr :=
  if cleanRoute == ['/'] then "index.html".toList
  else cleanRoute.drop 1 ++ "/index.html".toList

/-- `prerenderRoutes(distDir, routes, jobId)` (v2.9.0 lines 2361-2470):
routes are rendered one at a time (`for (const route of routes)`), a
successful page capture is written at the route's output path, and a failed
route is only recorded in `failed` — no fallback document is written. -/
def prerenderRoutes (env : Prerender29Env) (routes : List JStr) :
    Prerender29Result :=
  if !env.playwrightAvailable then Prerender29Result.mk [] [] true []
  else if !env.serverOk then Prerender29Result.mk [] routes false []
  else if !env.launchOk then Prerender29Result.mk [] routes false []
  else
    routes.foldl
      (fun acc route =>
        let clean := cleanRoute29 route
        match env.render clean with
        | some html =>
          Prerender29Result.mk (acc.success ++ [clean]) acc.failed false
            (acc.writes ++ [(outFile29 clean, html)])
        | none =>
          Prerender29Result.mk acc.success (acc.failed ++ [clean]) false acc.writes)
      (Prerender29Result.mk [] [] false [])

theorem sliceBatches_flatten {α : Type} (c : Nat) (l : List α) :
    (sliceBatches c l).flatten = l := by
  induction l using sliceBatches.induct c with
  | case1 =>
    rw [sliceBatches]
    rfl
  | case2 x xs ih =>
    rw [sliceBatches, List.flatten_cons, ih]
    simp [List.take_append_drop]

theorem sliceBatches_sizes {α : Type} (c : Nat) (hc : 0 < c) (l : List α) :
    ∀ b ∈ sliceBatches c l, b ≠ [] ∧ b.length ≤ c := by
  induction l using sliceBatches.induct c with
  | case1 =>
    rw [sliceBatches]
    intro b hb
    exact absurd hb (List.not_mem_nil b)
  | case2 x xs ih =>
    rw [sliceBatches]
    intro b hb
    rcases List.mem_cons.mp hb with rfl | h2
    · refine ⟨by simp, ?_⟩
      simp only [List.length_cons]
      have := List.length_take_le (c - 1) xs
      omega
    · exact ih b h2

/-- The expected single write of one route under `prerenderDistToFiles`. -/
def expectedWrite (render : JStr → Option JStr) (fallback : JStr)
    (route : JStr) : JStr × JStr :=
  match render route with
  | some html =>
    if html.length < 500 then (routeToOutfile route, fallback)
    else (routeToOutfile route, html)
  | none => (routeToOutfile route, fallback)

theorem renderFold_characterize (render : JStr → Option JStr) (fallback : JStr)
    (routes : List JStr) :
    ∀ acc : RenderOutcome,
      (routes.foldl (renderStep render fallback) acc).writes =
        acc.writes ++ routes.map (expectedWrite render fallback) ∧
      (routes.foldl (renderStep render fallback) acc).success +
          (routes.foldl (renderStep render fallback) acc).failed.length =
        acc.success + acc.failed.length + routes.length := by
  induction routes with
  | nil =>
    intro acc
    simp
  | cons r rs ih =>
    intro acc
    rw [List.foldl_cons]
    obtain ⟨ihw, ihc⟩ := ih (renderStep render fallback acc r)
    constructor
    · rw [ihw, List.map_cons]
      rw [renderStep, expectedWrite]
      cases render r with
      | none => simp
      | some html =>
        dsimp only
        by_cases hlen : html.length < 500
        · rw [if_pos hlen, if_pos hlen]
          simp
        · rw [if_neg hlen, if_neg hlen]
          simp
    · rw [ihc]
      rw [renderStep]
      cases render r with
      | none => simp; omega
      | some html =>
        dsimp only
        by_cases hlen : html.length < 500
        · rw [if_pos hlen]
          simp
          omega
        · rw [if_neg hlen]
          simp
          omega

theorem prerenderRoutes_writes (render : JStr → Option JStr)
    (routes : List JStr) :
    (prerenderRoutes (Prerender29Env.mk true true true render) routes).writes =
      routes.filterMap (fun r =>
        (render (cleanRoute29 r)).map
          (fun html => (outFile29 (cleanRoute29 r), html))) := by
  rw [prerenderRoutes]
  simp only [Bool.not_true, Bool.false_eq_true, if_false]
  suffices h : ∀ acc : Prerender29Result,
      (routes.foldl
        (fun acc route =>
          let clean := cleanRoute29 route
          match render clean with
          | some html =>
            Prerender29Result.mk (acc.success ++ [clean]) acc.failed false
              (acc.writes ++ [(outFile29 clean, html)])
          | none =>
            Prerender29Result.mk acc.success (acc.failed ++ [clean]) false
              acc.writes) acc).writes =
        acc.writes ++ routes.filterMap (fun r =>
          (render (cleanRoute29 r)).map
            (fun html => (outFile29 (cleanRoute29 r), html))) by
    rw [h (Prerender29Result.mk [] [] false [])]
    rfl
  induction routes with
  | nil =>
    intro acc
    simp
  | cons r rs ih =>
    intro acc
    rw [List.foldl_cons, List.filterMap_cons]
    cases hr : render (cleanRoute29 r) with
    | none =>
      rw [ih]
      simp [hr]
    | some html =>
      rw [ih]
      simp [hr]

/-- C3 counterexample: in the v2.9.0 `prerenderRoutes` (Playwright present,
server and browser fine), the single failing route `/a` produces zero output
documents — no fallback copy of the root index document is written — so the
farm does not produce exactly N documents; it also renders routes one at a
time rather than in concurrency-sized batches. -/
theorem c3_counterexample :
    (prerenderRoutes (Prerender29Env.mk true true true (fun _ => none))
      ["/a".toList]).writes = [] ∧
    (prerenderRoutes (Prerender29Env.mk true true true (fun _ => none))
      ["/a".toList]).failed = ["/a".toList] := by
  constructor
  · rfl
  · rfl

/-- C3 (amended): the v2.1.0 `prerenderDistToFiles` partitions the routes
into consecutive batches of size `concurrency` (every batch nonempty, none
larger than `concurrency`, concatenating to the route list), renders batch
by batch, and writes exactly one document per requested route — the captured
markup when navigation succeeds and the page is at least 500 characters,
otherwise a fallback copy of the root index document at the same expected
location — so `success + failed = N`.  The v2.9.0 `prerenderRoutes` instead
renders sequentially and writes only the successfully captured routes:
failed routes get no document. -/
theorem c3_render_farm (render : JStr → Option JStr) (fallback : JStr)
    (concurrency : Nat) (routes : List JStr) (hC : 0 < concurrency) :
    (sliceBatches concurrency routes).flatten = routes ∧
    (∀ b ∈ sliceBatches concurrency routes, b ≠ [] ∧ b.length ≤ concurrency) ∧
    (prerenderDistToFiles render fallback concurrency routes).writes =
      routes.map (expectedWrite render fallback) ∧
    (prerenderDistToFiles render fallback concurrency routes).success +
        (prerenderDistToFiles render fallback concurrency routes).failed.length =
      routes.length ∧
    (prerenderRoutes (Prerender29Env.mk true true true render) routes).writes =
      routes.filterMap (fun r =>
        (render (cleanRoute29 r)).map
          (fun html => (outFile29 (cleanRoute29 r), html))) := by
  have hfold : prerenderDistToFiles render fallback concurrency routes =
      routes.foldl (renderStep render fallback) (RenderOutcome.mk [] 0 []) := by
    rw [prerenderDistToFiles, ← List.foldl_flatten, sliceBatches_flatten]
  obtain ⟨hw, hc⟩ := renderFold_characterize render fallback routes
    (RenderOutcome.mk [] 0 [])
  refine ⟨sliceBatches_flatten concurrency routes,
    sliceBatches_sizes concurrency hC routes, ?_, ?_, ?_⟩
  · rw [hfold, hw]
    rfl
  · rw [hfold, hc]
    simp
  · exact prerenderRoutes_writes render routes

/-- C3 witness: the render-farm theorem at three routes with concurrency 2. -/
theorem c3_render_farm_witness :
    (sliceBatches 2 ["/".toList, "/about".toList, "/about/team".toList]).flatten =
      ["/".toList, "/about".toList, "/about/team".toList] :=
  (c3_render_farm (fun _ => none) "fallback".toList 2
    ["/".toList, "/about".toList, "/about/team".toList] (by decide)).1

/-! ## Process Supervisor (v2.1.0 `runCmd`, lines 1011-1023; the v2.9.0
`runCommand`, lines 2016-2059, differs only in signal — SIGTERM to a shell
instead of SIGKILL — and in reporting stderr alone) -/

/-- One execution of a spawned command.  `exit = some (code, atMs)` means the
child closes at `atMs` milliseconds with that code; `none` means it never
closes.  `grandchildren` are the pids of descendant processes still alive
when the deadline fires — `p.kill("SIGKILL")` signals only the direct
child's pid, so these receive no signal. -/
structure ProcExec where
  exit : Option (Nat × Nat)
  stdout : JStr
  stderr : JStr
  grandchildren : List Nat
deriving DecidableEq

/-- The supervisor's observable outcome. -/
inductive CmdOutcome
  | resolved (stdout stderr : JStr)
  | nonZeroExit (code : Nat) (diagnostic : JStr)
  | timedOut
deriving DecidableEq

/-- `runCmd(cmd, args, cwd, timeoutSec)` (v2.1.0 lines 1011-1023): resolve
with the captured output on exit code 0 within the deadline, reject with
`Failed (code): err || out` on a nonzero code, and on deadline expiry
`p.kill("SIGKILL")` the direct child and reject with `Timeout`.  The second
component lists the pids left unsignaled afterwards. -/
def runCmd (timeoutMs : Nat) (e : ProcExec) : CmdOutcome × List Nat :=
  match e.exit with
  | some (code, atMs) =>
    if atMs ≤ timeoutMs then
      if code = 0 then (.resolved e.stdout e.stderr, [])
      else (.nonZeroExit code (if e.stderr.isEmpty then e.stdout else e.stderr), [])
    else (.timedOut, e.grandchildren)
  | none => (.timedOut, e.grandchildren)

/-- C5 counterexample: a child that never exits but spawned a grandchild
(pid 42).  The deadline fires, the supervisor reports TimedOut — but only
the direct child was signaled, so the grandchild survives as an orphan,
refuting "forcibly terminates the whole process tree (including
grandchildren) ... leaving no orphan process". -/
theorem c5_counterexample :
    runCmd 1000 (ProcExec.mk none [] [] [42]) = (CmdOutcome.timedOut, [42]) ∧
    [42] ≠ ([] : List Nat) := by
  constructor
  · rfl
  · decide

/-- C5 (amended): `runCmd` resolves with the captured `{stdout, stderr}`
exactly when the child exits with code zero within the deadline, rejects
with a NonZeroExit carrying the exit code and `stderr || stdout` for any
nonzero exit, and on expiry of the deadline SIGKILLs the direct child and
reports TimedOut — but grandchild processes are not signaled and survive
(the v2.9.0 variant even sends only SIGTERM to the intermediate shell). -/
theorem c5_supervisor (timeoutMs : Nat) (e : ProcExec) :
    (∀ code atMs, e.exit = some (code, atMs) → atMs ≤ timeoutMs →
      (code = 0 → runCmd timeoutMs e = (.resolved e.stdout e.stderr, [])) ∧
      (code ≠ 0 → runCmd timeoutMs e =
        (.nonZeroExit code (if e.stderr.isEmpty then e.stdout else e.stderr), []))) ∧
    ((e.exit = none ∨ ∃ code atMs, e.exit = some (code, atMs) ∧ timeoutMs < atMs) →
      runCmd timeoutMs e = (.timedOut, e.grandchildren)) := by
  constructor
  · intro code atMs hexit hdead
    constructor
    · intro hzero
      rw [runCmd, hexit]
      dsimp only
      rw [if_pos hdead, if_pos hzero]
    · intro hnz
      rw [runCmd, hexit]
      dsimp only
      rw [if_pos hdead, if_neg hnz]
  · intro h
    rcases h with hnone | ⟨code, atMs, hexit, hlate⟩
    · rw [runCmd, hnone]
    · rw [runCmd, hexit]
      dsimp only
      rw [if_neg (by omega)]

/-- C5 witness: the supervisor theorem at a clean exit and at a hung child. -/
theorem c5_supervisor_witness :
    runCmd 500 (ProcExec.mk (some (0, 100)) "out".toList "err".toList []) =
      (CmdOutcome.resolved "out".toList "err".toList, []) ∧
    runCmd 500 (ProcExec.mk none [] [] [7]) = (CmdOutcome.timedOut, [7]) := by
  constructor
  · exact ((c5_supervisor 500
      (ProcExec.mk (some (0, 100)) "out".toList "err".toList [])).1 0 100 rfl
      (by decide)).1 rfl
  · exact (c5_supervisor 500 (ProcExec.mk none [] [] [7])).2 (Or.inl rfl)

/-! ## Job Store and Pipeline Orchestrator (v2.9.0 `updateJob` line 1954-1957,
`processBuild` lines 2475-2569, `/build` handler lines 2574-2617) -/

/-- The job `status` strings written by the v2.9.0 pipeline. -/
inductive Status
  | processing
  | extracting
  | strippingUnusedRoutes
  | injectingRouteGuard
  | installingDependencies
  | building
  | prerendering
  | packaging
  | completed
  | failed
deriving DecidableEq

/-- One `updateJob(jobId, updates)` argument: exactly the fields present in
the `updates` object (`jobs.set(jobId, { ...job, ...updates })` overwrites
exactly the present fields). -/
structure Upd where
  status : Option Status
  progress : Option Nat
  error : Option String
  downloadUrl : Option Unit
deriving DecidableEq

/-- A stage update `{ progress, status }`. -/
def stageUpd (st : Status) (p : Nat) : Upd :=
  Upd.mk (some st) (some p) none none

/-- The catch-block update `{ status: 'failed', error: message }`. -/
def failUpd (e : String) : Upd :=
  Upd.mk (some .failed) none (some e) none

/-- The completion update `{ progress: 100, status: 'completed',
downloadUrl, ... }`. -/
def completedUpd : Upd :=
  Upd.mk (some .completed) (some 100) none (some ())

/-- The fields of a stored job record the claims are about. -/
structure JobRecord where
  status : Status
  progress : Nat
  error : Option String
  downloadUrl : Bool
deriving DecidableEq

/-- `updateJob`'s object-spread merge. -/
def applyUpd (r : JobRecord) (u : Upd) : JobRecord :=
  JobRecord.mk (u.status.getD r.status) (u.progress.getD r.progress)
    (match u.error with
     | some e => some e
     | none => r.error)
    (match u.downloadUrl with
     | some _ => true
     | none => r.downloadUrl)

/-- The record stored by the admission handler (lines 2581-2587):
`{ status: 'processing', progress: 0 }`. -/
def initRecord : JobRecord :=
  JobRecord.mk .processing 0 none false

/-- Filesystem events of one job run. -/
inductive JobEvent
  | stagingCreated
  | artifactWrite
  | removeAttempt (ok : Bool)
deriving DecidableEq

/-- Outcomes of every failable await of the v2.9.0 handler and
`processBuild`, in program order, plus the results of the two possible
`fs.remove(workDir)` calls. -/
structure BuildOracle29 where
  parseRes : Except String Unit
  extractRes : Except String Unit
  ensureRes : Except String Unit
  rootRes : Except String Unit
  stripRes : Except String Unit
  guardRes : Except String Unit
  installRes : Except String Unit
  buildRes : Except String Unit
  prerenderRes : Except String Unit
  packageRes : Except String Unit
  removeOk : Bool
  catchRemoveOk : Bool

/-- One step of `processBuild`'s straight-line body: the `updateJob` calls
made on entering the step, the filesystem events of the step's work, and
the awaited work's outcome. -/
structure ScriptStep where
  upds : List Upd
  events : List JobEvent
  res : Except String Unit

/-- The body of `processBuild` (lines 2475-2562) as its sequence of steps:
ensureDir; project-root discovery; route stripping; guard injection;
`npm install`; `npm run build` and dist discovery; prerendering; packaging
(which writes the artifact to `/tmp/outputs/<jobId>.zip`); then the
completion update followed by `fs.remove(workDir)`. -/
def processBuildScript (o : BuildOracle29) : List ScriptStep :=
  [ScriptStep.mk [] [] o.ensureRes,
   ScriptStep.mk [stageUpd .extracting 5] [] o.rootRes,
   ScriptStep.mk [stageUpd .strippingUnusedRoutes 8] [] o.stripRes,
   ScriptStep.mk [stageUpd .injectingRouteGuard 10] [] o.guardRes,
   ScriptStep.mk [stageUpd .installingDependencies 15] [] o.installRes,
   ScriptStep.mk [stageUpd .building 40] [] o.buildRes,
   ScriptStep.mk [stageUpd .prerendering 60] [] o.prerenderRes,
   ScriptStep.mk [stageUpd .packaging 85]
     (match o.packageRes with
      | .ok _ => [.artifactWrite]
      | .error _ => []) o.packageRes,
   ScriptStep.mk [completedUpd] [.removeAttempt o.removeOk]
     (if o.removeOk then .ok () else .error "staging cleanup failed")]

/-- Run a step sequence under a single `try/catch`: each step's updates and
events happen in order; the first failing step appends the failure update
and the catch block's events (`fs.remove(workDir).catch(() => {})`) and
stops. -/
def runScript (catchEvents : List JobEvent) :
    List ScriptStep → List Upd × List JobEvent
  | [] => ([], [])
  | s :: rest =>
    match s.res with
    | .ok _ =>
      (s.upds ++ (runScript catchEvents rest).1,
       s.events ++ (runScript catchEvents rest).2)
    | .error e => (s.upds ++ [failUpd e], s.events ++ catchEvents)

/-- `processBuild(jobId, workDir, ...)` (lines 2475-2569): the job-store
updates it performs and the filesystem events it causes, in order. -/
def processBuild (o : BuildOracle29) : List Upd × List JobEvent :=
  runScript [.removeAttempt o.catchRemoveOk] (processBuildScript o)

/-- The `/build` admission handler (lines 2574-2617): after storing the
initial record and responding 202, it parses the request fields, creates the
staging directory, extracts the upload with `zip.extractAllTo`, and launches
`processBuild`; its own catch block only marks the job failed — it removes
nothing. -/
def buildJob (o : BuildOracle29) : List Upd × List JobEvent :=
  match o.parseRes with
  | .error e => ([failUpd e], [])
  | .ok _ =>
    match o.extractRes with
    | .error e => ([failUpd e], [.stagingCreated])
    | .ok _ =>
      ((processBuild o).1, .stagingCreated :: (processBuild o).2)

/-- The job's status values in store order. -/
def statusTrace (o : BuildOracle29) : List Status :=
  (buildJob o).1.filterMap (·.status)

/-- The stored record after every prefix of updates. -/
def jobRecords (o : BuildOracle29) : List JobRecord :=
  (buildJob o).1.scanl applyUpd initRecord

/-- The stored record once the job is finished. -/
def finalRecord (o : BuildOracle29) : JobRecord :=
  (buildJob o).1.foldl applyUpd initRecord

/-- The stage updates of a fully successful run, in order. -/
def canonicalUpds : List Upd :=
  [stageUpd .extracting 5, stageUpd .strippingUnusedRoutes 8,
   stageUpd .injectingRouteGuard 10, stageUpd .installingDependencies 15,
   stageUpd .building 40, stageUpd .prerendering 60, stageUpd .packaging 85,
   completedUpd]

/-- The status values of a fully successful run, in order. -/
def canonicalStatuses : List Status :=
  [.extracting, .strippingUnusedRoutes, .injectingRouteGuard,
   .installingDependencies, .building, .prerendering, .packaging, .completed]

/-- The first failure a run hits, in program order. -/
def firstFailure (o : BuildOracle29) : Option String :=
  match o.parseRes with
  | .error e => some e
  | .ok _ =>
    match o.extractRes with
    | .error e => some e
    | .ok _ =>
      match o.ensureRes with
      | .error e => some e
      | .ok _ =>
        match o.rootRes with
        | .error e => some e
        | .ok _ =>
          match o.stripRes with
          | .error e => some e
          | .ok _ =>
            match o.guardRes with
            | .error e => some e
            | .ok _ =>
              match o.installRes with
              | .error e => some e
              | .ok _ =>
                match o.buildRes with
                | .error e => some e
                | .ok _ =>
                  match o.prerenderRes with
                  | .error e => some e
                  | .ok _ =>
                    match o.packageRes with
                    | .error e => some e
                    | .ok _ =>
                      if o.removeOk then none else some "staging cleanup failed"

theorem buildJob_shape (o : BuildOracle29) :
    (∃ e k, k ≤ 7 ∧ firstFailure o = some e ∧
      (buildJob o).1 = canonicalUpds.take k ++ [failUpd e] ∧
      (o.parseRes = .ok () → o.extractRes = .ok () →
        (buildJob o).2 = [.stagingCreated, .removeAttempt o.catchRemoveOk])) ∨
    (firstFailure o = some "staging cleanup failed" ∧ o.removeOk = false ∧
      (buildJob o).1 = canonicalUpds ++ [failUpd "staging cleanup failed"] ∧
      (buildJob o).2 = [.stagingCreated, .artifactWrite, .removeAttempt false,
        .removeAttempt o.catchRemoveOk]) ∨
    (firstFailure o = none ∧ (buildJob o).1 = canonicalUpds ∧
      (buildJob o).2 = [.stagingCreated, .artifactWrite, .removeAttempt true]) := by
  obtain ⟨p, x, en, ro, st, gu, ins, bu, pr, pa, rm, crm⟩ := o
  rcases p with e | pu
  · exact Or.inl ⟨e, 0, by omega, rfl, rfl, fun h => Except.noConfusion h⟩
  rcases x with e | xu
  · exact Or.inl ⟨e, 0, by omega, rfl, rfl, fun _ h => Except.noConfusion h⟩
  rcases en with e | enu
  · exact Or.inl ⟨e, 0, by omega, rfl, rfl, fun _ _ => rfl⟩
  rcases ro with e | rou
  · exact Or.inl ⟨e, 1, by omega, rfl, rfl, fun _ _ => rfl⟩
  rcases st with e | stu
  · exact Or.inl ⟨e, 2, by omega, rfl, rfl, fun _ _ => rfl⟩
  rcases gu with e | guu
  · exact Or.inl ⟨e, 3, by omega, rfl, rfl, fun _ _ => rfl⟩
  rcases ins with e | insu
  · exact Or.inl ⟨e, 4, by omega, rfl, rfl, fun _ _ => rfl⟩
  rcases bu with e | buu
  · exact Or.inl ⟨e, 5, by omega, rfl, rfl, fun _ _ => rfl⟩
  rcases pr with e | pru
  · exact Or.inl ⟨e, 6, by omega, rfl, rfl, fun _ _ => rfl⟩
  rcases pa with e | pau
  · exact Or.inl ⟨e, 7, by omega, rfl, rfl, fun _ _ => rfl⟩
  cases rm with
  | false => exact Or.inr (Or.inl ⟨rfl, rfl, rfl, rfl⟩)
  | true => exact Or.inr (Or.inr ⟨rfl, rfl, rfl⟩)

/-- C6 counterexample: when every stage succeeds but the final
`fs.remove(workDir)` rejects, the catch block re-marks the job: the status
trace ends `... → completed → failed`, so `Failed` is entered from the
terminal state `Completed`, violating the claimed linear order. -/
theorem c6_counterexample :
    statusTrace (BuildOracle29.mk (.ok ()) (.ok ()) (.ok ()) (.ok ()) (.ok ())
      (.ok ()) (.ok ()) (.ok ()) (.ok ()) (.ok ()) false true) =
      [.extracting, .strippingUnusedRoutes, .injectingRouteGuard,
       .installingDependencies, .building, .prerendering, .packaging,
       .completed, .failed] := rfl

/-- C6 (amended): the status updates of one job follow the linear order
processing → extracting → stripping/injecting (Transforming) → installing →
building → prerendering (Rendering) → packaging → completed, with no
reordering or skipping; on the first failure the trace is a prefix of that
order followed directly by `failed` carrying the causing error message, with
no further stage updates; and `failed` is reachable from every non-terminal
stage.  Exception to the claim: if the post-completion staging removal
fails, a `failed` update follows `completed`. -/
theorem c6_stage_order (o : BuildOracle29) :
    (∃ k, k ≤ 8 ∧
      (statusTrace o = canonicalStatuses.take k ++ [.failed] ∨
       statusTrace o = canonicalStatuses)) ∧
    (buildJob o).1.getLast? = some (match firstFailure o with
      | some e => failUpd e
      | none => completedUpd) ∧
    (∀ k, k ≤ 7 → ∃ o2 : BuildOracle29,
      statusTrace o2 = canonicalStatuses.take k ++ [.failed]) := by
  refine ⟨?_, ?_, ?_⟩
  · rcases buildJob_shape o with ⟨e, k, hk, hff, hupds, hev⟩ |
      ⟨hff, hrm, hupds, hev⟩ | ⟨hff, hupds, hev⟩
    · refine ⟨k, by omega, Or.inl ?_⟩
      rw [statusTrace, hupds]
      interval_cases k <;> rfl
    · refine ⟨8, by omega, Or.inl ?_⟩
      rw [statusTrace, hupds]
      rfl
    · refine ⟨0, by omega, Or.inr ?_⟩
      rw [statusTrace, hupds]
      rfl
  · rcases buildJob_shape o with ⟨e, k, hk, hff, hupds, hev⟩ |
      ⟨hff, hrm, hupds, hev⟩ | ⟨hff, hupds, hev⟩
    · rw [hupds, hff]
      interval_cases k <;> rfl
    · rw [hupds, hff]
      rfl
    · rw [hupds, hff]
      rfl
  · intro k hk
    interval_cases k
    · exact ⟨BuildOracle29.mk (.error "m") (.ok ()) (.ok ()) (.ok ()) (.ok ())
        (.ok ()) (.ok ()) (.ok ()) (.ok ()) (.ok ()) true true, rfl⟩
    · exact ⟨BuildOracle29.mk (.ok ()) (.ok ()) (.ok ()) (.error "m") (.ok ())
        (.ok ()) (.ok ()) (.ok ()) (.ok ()) (.ok ()) true true, rfl⟩
    · exact ⟨BuildOracle29.mk (.ok ()) (.ok ()) (.ok ()) (.ok ()) (.error "m")
        (.ok ()) (.ok ()) (.ok ()) (.ok ()) (.ok ()) true true, rfl⟩
    · exact ⟨BuildOracle29.mk (.ok ()) (.ok ()) (.ok ()) (.ok ()) (.ok ())
        (.error "m") (.ok ()) (.ok ()) (.ok ()) (.ok ()) true true, rfl⟩
    · exact ⟨BuildOracle29.mk (.ok ()) (.ok ()) (.ok ()) (.ok ()) (.ok ())
        (.ok ()) (.error "m") (.ok ()) (.ok ()) (.ok ()) true true, rfl⟩
    · exact ⟨BuildOracle29.mk (.ok ()) (.ok ()) (.ok ()) (.ok ()) (.ok ())
        (.ok ()) (.ok ()) (.error "m") (.ok ()) (.ok ()) true true, rfl⟩
    · exact ⟨BuildOracle29.mk (.ok ()) (.ok ()) (.ok ()) (.ok ()) (.ok ())
        (.ok ()) (.ok ()) (.ok ()) (.error "m") (.ok ()) true true, rfl⟩
    · exact ⟨BuildOracle29.mk (.ok ()) (.ok ()) (.ok ()) (.ok ()) (.ok ())
        (.ok ()) (.ok ()) (.ok ()) (.ok ()) (.error "m") true true, rfl⟩

/-- C6 witness: the order theorem's reachability clause at stage index 2. -/
theorem c6_stage_order_witness :
    ∃ o2 : BuildOracle29,
      statusTrace o2 = canonicalStatuses.take 2 ++ [Status.failed] :=
  (c6_stage_order (BuildOracle29.mk (.ok ()) (.ok ()) (.ok ()) (.ok ())
    (.ok ()) (.ok ()) (.ok ()) (.ok ()) (.ok ()) (.ok ()) true true)).2.2 2
    (by omega)

/-- C7 counterexample: in the completed-then-cleanup-failure run, the final
record is `failed` with the error message set while `downloadUrl` is still
set too — both of {artifact location, error message} are present at a
terminal stage. -/
theorem c7_counterexample :
    (finalRecord (BuildOracle29.mk (.ok ()) (.ok ()) (.ok ()) (.ok ())
      (.ok ()) (.ok ()) (.ok ()) (.ok ()) (.ok ()) (.ok ()) false
      true)).status = .failed ∧
    (finalRecord (BuildOracle29.mk (.ok ()) (.ok ()) (.ok ()) (.ok ())
      (.ok ()) (.ok ()) (.ok ()) (.ok ()) (.ok ()) (.ok ()) false
      true)).downloadUrl = true ∧
    (finalRecord (BuildOracle29.mk (.ok ()) (.ok ()) (.ok ()) (.ok ())
      (.ok ()) (.ok ()) (.ok ()) (.ok ()) (.ok ()) (.ok ()) false
      true)).error = some "staging cleanup failed" :=
  ⟨rfl, rfl, rfl⟩

/-- C7 (amended): the stored progress value is monotonically non-decreasing
across all job-store updates; and whenever the run does not pass through
`completed` and then `failed` (the post-completion cleanup-failure path),
the terminal record carries exactly one of {downloadUrl, error}: downloadUrl
and no error on completion, an error and no downloadUrl on failure.  In the
exceptional path both end up set. -/
theorem c7_record_invariants (o : BuildOracle29) :
    List.Chain' (· ≤ ·) ((jobRecords o).map (·.progress)) ∧
    (¬(Status.completed ∈ statusTrace o ∧ Status.failed ∈ statusTrace o) →
      ((finalRecord o).status = .completed ∨ (finalRecord o).status = .failed) ∧
      (((finalRecord o).downloadUrl = true ∧ (finalRecord o).error = none) ∨
       ((finalRecord o).downloadUrl = false ∧
        ((finalRecord o).error).isSome = true))) := by
  rcases buildJob_shape o with ⟨e, k, hk, hff, hupds, hev⟩ |
    ⟨hff, hrm, hupds, hev⟩ | ⟨hff, hupds, hev⟩
  · constructor
    · rw [jobRecords, hupds]
      interval_cases k <;>
        simp [List.scanl, applyUpd, canonicalUpds, stageUpd, failUpd,
          completedUpd, initRecord]
    · intro _
      rw [finalRecord, hupds]
      interval_cases k <;> exact ⟨Or.inr rfl, Or.inr ⟨rfl, rfl⟩⟩
  · constructor
    · rw [jobRecords, hupds]
      simp [List.scanl, applyUpd, canonicalUpds, stageUpd, failUpd,
        completedUpd, initRecord]
    · intro hne
      exact absurd ⟨by rw [statusTrace, hupds]; decide,
        by rw [statusTrace, hupds]; decide⟩ hne
  · constructor
    · rw [jobRecords, hupds]
      simp [List.scanl, applyUpd, canonicalUpds, stageUpd, failUpd,
        completedUpd, initRecord]
    · intro _
      rw [finalRecord, hupds]
      exact ⟨Or.inl rfl, Or.inl ⟨rfl, rfl⟩⟩

/-- C7 witness: the invariants theorem at a fully successful run. -/
theorem c7_record_invariants_witness :
    ((finalRecord (BuildOracle29.mk (.ok ()) (.ok ()) (.ok ()) (.ok ())
        (.ok ()) (.ok ()) (.ok ()) (.ok ()) (.ok ()) (.ok ()) true
        true)).downloadUrl = true ∧
      (finalRecord (BuildOracle29.mk (.ok ()) (.ok ()) (.ok ()) (.ok ())
        (.ok ()) (.ok ()) (.ok ()) (.ok ()) (.ok ()) (.ok ()) true
        true)).error = none) ∨
    ((finalRecord (BuildOracle29.mk (.ok ()) (.ok ()) (.ok ()) (.ok ())
        (.ok ()) (.ok ()) (.ok ()) (.ok ()) (.ok ()) (.ok ()) true
        true)).downloadUrl = false ∧
      ((finalRecord (BuildOracle29.mk (.ok ()) (.ok ()) (.ok ()) (.ok ())
        (.ok ()) (.ok ()) (.ok ()) (.ok ()) (.ok ()) (.ok ()) true
        true)).error).isSome = true) :=
  ((c7_record_invariants (BuildOracle29.mk (.ok ()) (.ok ()) (.ok ()) (.ok ())
    (.ok ()) (.ok ()) (.ok ()) (.ok ()) (.ok ()) (.ok ()) true true)).2
    (by decide)).2

/-- Whether a job event is a staging-removal attempt. -/
def isRemove : JobEvent → Bool
  | .removeAttempt _ => true
  | _ => false

/-- Whether a job event is a successful staging removal. -/
def isRemoveOk : JobEvent → Bool
  | .removeAttempt ok => ok
  | _ => false

/-- The v2.1.0 cleanup guard (lines 900-908): `cleanup()` may be invoked
several times (response close plus the finally block); the
`cleanupScheduled` flag makes the removal body run at most once.
`cleanupRuns n scheduled` counts the removals performed by `n` invocations
starting from the given flag state. -/
def cleanupRuns : Nat → Bool → Nat
  | 0, _ => 0
  | n + 1, scheduled =>
    if scheduled then cleanupRuns n true else 1 + cleanupRuns n true

theorem cleanupRuns_scheduled (n : Nat) : cleanupRuns n true = 0 := by
  induction n with
  | zero => rfl
  | succ n ih => simp [cleanupRuns, ih]

theorem cleanupRuns_once (n : Nat) (h : 1 ≤ n) : cleanupRuns n false = 1 := by
  cases n with
  | zero => omega
  | succ n => simp [cleanupRuns, cleanupRuns_scheduled]

theorem buildsDir_not_prefix_of_outputs (jobId : JStr) :
    listStartsWith ("/tmp/builds/".toList ++ jobId)
      ("/tmp/outputs/".toList ++ jobId ++ ".zip".toList) = false := rfl

/-- C8 counterexample: a job whose archive extraction throws in the
admission handler (`zip.extractAllTo`) reaches the terminal state `failed`
with the staging directory created but never removed — the handler's catch
block performs no cleanup, so staging is not deleted exactly once. -/
theorem c8_counterexample :
    (buildJob (BuildOracle29.mk (.ok ()) (.error "bad zip") (.ok ()) (.ok ())
      (.ok ()) (.ok ()) (.ok ()) (.ok ()) (.ok ()) (.ok ()) true true)).2 =
      [.stagingCreated] ∧
    statusTrace (BuildOracle29.mk (.ok ()) (.error "bad zip") (.ok ()) (.ok ())
      (.ok ()) (.ok ()) (.ok ()) (.ok ()) (.ok ()) (.ok ()) true true) =
      [.failed] :=
  ⟨rfl, rfl⟩

/-- C8 (amended): for every job that enters `processBuild` (admission
parsing and extraction succeeded), staging removal is attempted at the
terminal state on every path — once, with a swallowed catch-side retry only
if the first removal fails — at most one removal succeeds, every artifact
write precedes every removal attempt, and the artifact path
`/tmp/outputs/<jobId>.zip` is never inside the staging tree
`/tmp/builds/<jobId>`, so cleanup leaves the packaged artifact unchanged.
The v2.1.0 handler's `cleanupScheduled` flag likewise makes its removal run
exactly once however many times `cleanup()` fires.  Jobs that fail during
the admission handler's extraction step never remove the staging
directory. -/
theorem c8_staging_cleanup (o : BuildOracle29)
    (hp : o.parseRes = .ok ()) (hx : o.extractRes = .ok ()) :
    1 ≤ (((buildJob o).2).filter isRemove).length ∧
    (((buildJob o).2).filter isRemoveOk).length ≤ 1 ∧
    (∃ pre post, (buildJob o).2 = pre ++ post ∧
      (∀ ev ∈ pre, isRemove ev = false) ∧ JobEvent.artifactWrite ∉ post) ∧
    (∀ jobId : JStr, listStartsWith ("/tmp/builds/".toList ++ jobId)
      ("/tmp/outputs/".toList ++ jobId ++ ".zip".toList) = false) ∧
    (∀ n, 1 ≤ n → cleanupRuns n false = 1) := by
  refine ⟨?_, ?_, ?_, fun jobId => buildsDir_not_prefix_of_outputs jobId,
    fun n hn => cleanupRuns_once n hn⟩ <;>
    rcases buildJob_shape o with ⟨e, k, hk, hff, hupds, hev⟩ |
      ⟨hff, hrm, hupds, hev⟩ | ⟨hff, hupds, hev⟩
  · rw [hev hp hx]
    cases o.catchRemoveOk <;> decide
  · rw [hev]
    cases o.catchRemoveOk <;> decide
  · rw [hev]
    decide
  · rw [hev hp hx]
    cases o.catchRemoveOk <;> decide
  · rw [hev]
    cases o.catchRemoveOk <;> decide
  · rw [hev]
    decide
  · rw [hev hp hx]
    refine ⟨[.stagingCreated], [.removeAttempt o.catchRemoveOk], rfl, ?_, ?_⟩
    · intro ev hevm
      rcases List.mem_cons.mp hevm with rfl | h2
      · rfl
      · exact absurd h2 (List.not_mem_nil ev)
    · intro hmem
      rcases List.mem_cons.mp hmem with heq | h2
      · exact JobEvent.noConfusion heq
      · exact absurd h2 (List.not_mem_nil _)
  · rw [hev]
    refine ⟨[.stagingCreated, .artifactWrite],
      [.removeAttempt false, .removeAttempt o.catchRemoveOk], rfl, ?_, ?_⟩
    · intro ev hevm
      rcases List.mem_cons.mp hevm with rfl | h2
      · rfl
      · rcases List.mem_cons.mp h2 with rfl | h3
        · rfl
        · exact absurd h3 (List.not_mem_nil ev)
    · intro hmem
      rcases List.mem_cons.mp hmem with heq | h2
      · exact JobEvent.noConfusion heq
      · rcases List.mem_cons.mp h2 with heq | h3
        · exact JobEvent.noConfusion heq
        · exact absurd h3 (List.not_mem_nil _)
  · rw [hev]
    exact ⟨[.stagingCreated, .artifactWrite], [.removeAttempt true], rfl,
      by decide, by decide⟩

/-- C8 witness: the cleanup theorem at a fully successful job. -/
theorem c8_staging_cleanup_witness :
    1 ≤ (((buildJob (BuildOracle29.mk (.ok ()) (.ok ()) (.ok ()) (.ok ())
      (.ok ()) (.ok ()) (.ok ()) (.ok ()) (.ok ()) (.ok ()) true
      true)).2).filter isRemove).length :=
  (c8_staging_cleanup (BuildOracle29.mk (.ok ()) (.ok ()) (.ok ()) (.ok ())
    (.ok ()) (.ok ()) (.ok ()) (.ok ()) (.ok ()) (.ok ()) true true)
    rfl rfl).1

/-! ## Download endpoint (v2.9.0 `/download/:jobId`, lines 2637-2656, guarded
by `authenticateDownload`, lines 1999-2011) -/

/-- The server state the download endpoint touches: which jobIds have an
artifact file under `/tmp/outputs`, and which jobIds are in the job map. -/
structure ServerState where
  artifacts : List JStr
  jobs : List JStr
deriving DecidableEq

/-- The endpoint's observable response. -/
inductive DownloadResponse
  | forbidden
  | notFound
  | fileSent
  | sendError
deriving DecidableEq

/-- `authenticateDownload` (lines 1999-2011): a Bearer token equal to the
API key, or a verifying `?t=` token whose embedded jobId matches the
requested one. -/
def downloadAuthorized (hmac : JStr → JStr → JStr) (apiKey : JStr)
    (bearer : Option JStr) (tquery : Option JStr) (now : Nat)
    (jobId : JStr) : Bool :=
  (match bearer with
   | some b => b == apiKey
   | none => false) ||
  (match tquery with
   | some t => tokenAuthorizes hmac apiKey t now jobId
   | none => false)

/-- `GET /download/:jobId`: `authenticateDownload` accepts a Bearer API key
or a verifying `?t=` token for this jobId; then a missing artifact is 404;
otherwise `res.download` streams the file and, on successful delivery only,
the artifact file is removed and the job entry deleted (the error callback
returns without cleaning up). -/
def downloadEndpoint (hmac : JStr → JStr → JStr) (apiKey : JStr)
    (bearer : Option JStr) (tquery : Option JStr) (now : Nat) (sendOk : Bool)
    (jobId : JStr) (st : ServerState) : DownloadResponse × ServerState :=
  if !downloadAuthorized hmac apiKey bearer tquery now jobId then
    (.forbidden, st)
  else if jobId ∉ st.artifacts then (.notFound, st)
  else if sendOk then
    (.fileSent, ServerState.mk (st.artifacts.filter (· ≠ jobId))
      (st.jobs.filter (· ≠ jobId)))
  else (.sendError, st)

/-- C9: redeeming a completed job's artifact with the long-lived credential
or a valid download token returns the packaged file and afterwards removes
both the artifact file and the job-store entry, so a second redemption of
the same job answers not-found. -/
theorem c9_single_redemption (hmac : JStr → JStr → JStr) (apiKey : JStr)
    (bearer tquery : Option JStr) (now : Nat) (jobId : JStr) (st : ServerState)
    (hauth : bearer = some apiKey ∨
      (∃ tok, tquery = some tok ∧
        verifyDownloadToken hmac apiKey tok now = some jobId))
    (hart : jobId ∈ st.artifacts) :
    (downloadEndpoint hmac apiKey bearer tquery now true jobId st).1 =
      .fileSent ∧
    jobId ∉
      (downloadEndpoint hmac apiKey bearer tquery now true jobId st).2.artifacts ∧
    jobId ∉
      (downloadEndpoint hmac apiKey bearer tquery now true jobId st).2.jobs ∧
    (∀ sendOk2,
      (downloadEndpoint hmac apiKey bearer tquery now sendOk2 jobId
        (downloadEndpoint hmac apiKey bearer tquery now true jobId st).2).1 =
        .notFound) := by
  have hauthtrue :
      downloadAuthorized hmac apiKey bearer tquery now jobId = true := by
    rcases hauth with hb | ⟨tok, ht, hver⟩
    · rw [hb]
      simp [downloadAuthorized]
    · rw [ht]
      unfold downloadAuthorized
      rw [Bool.or_eq_true]
      right
      unfold tokenAuthorizes
      dsimp only
      rw [hver]
      simp
  have h1 : downloadEndpoint hmac apiKey bearer tquery now true jobId st =
      (.fileSent, ServerState.mk (st.artifacts.filter (· ≠ jobId))
        (st.jobs.filter (· ≠ jobId))) := by
    simp only [downloadEndpoint, hauthtrue]
    rw [if_neg (by simp), if_neg (not_not.mpr hart)]
    simp
  have hout : jobId ∉ st.artifacts.filter (· ≠ jobId) := by
    intro hmem
    rw [List.mem_filter] at hmem
    have h2 : jobId ≠ jobId := by simpa using hmem.2
    exact h2 rfl
  refine ⟨by rw [h1], by rw [h1]; exact hout, ?_, ?_⟩
  · rw [h1]
    intro hmem
    rw [List.mem_filter] at hmem
    have h2 : jobId ≠ jobId := by simpa using hmem.2
    exact h2 rfl
  · intro sendOk2
    rw [h1]
    simp only [downloadEndpoint, hauthtrue]
    rw [if_neg (by simp), if_pos hout]

/-- C9 witness: a bearer-credential redemption followed by a 404. -/
theorem c9_single_redemption_witness :
    (downloadEndpoint (fun _ _ => "abcd".toList) "k".toList
      (some "k".toList) none 0 true "job1".toList
      (ServerState.mk ["job1".toList] ["job1".toList])).1 =
      DownloadResponse.fileSent :=
  (c9_single_redemption (fun _ _ => "abcd".toList) "k".toList
    (some "k".toList) none 0 "job1".toList
    (ServerState.mk ["job1".toList] ["job1".toList])
    (Or.inl rfl) (by decide)).1

end ThemeFactory
